import Mathlib

/-!
Verification of the learndb storage engine (src/learndb.py) against its
specification. The development shallowly embeds the row codec, the pager
(page cache + file), the B-tree insert algorithm and the cursor, and proves
the spec's testable properties about them.

Bytes are modelled as natural numbers (the code only ever stores values
below 256 produced by `int.to_bytes` and UTF-8 encoding); files and pages
are lists of bytes. A Python `str` body is modelled by its UTF-8 byte
sequence, so equality of bodies is equality of byte lists (UTF-8 encoding
is injective on strings).
-/

namespace LearnDb

/-! ## Constants (src/learndb.py lines 21-34) -/

def PAGE_SIZE : Nat := 4096
def TABLE_MAX_PAGES : Nat := 100
def ID_SIZE : Nat := 6
def BODY_SIZE : Nat := 58
def ROW_SIZE : Nat := ID_SIZE + BODY_SIZE
def ID_OFFSET : Nat := 0
def BODY_OFFSET : Nat := ID_OFFSET + ID_SIZE

/-! ## Row codec (src/learndb.py: `Row`, `Table.serialize`, `Table.deserialize`) -/

/-- A row: integer identifier plus text body. The body is represented by its
UTF-8 byte sequence (Python encodes with `bytes(str(row.body), "utf-8")`). -/
structure Row where
  identifier : Int
  body : List Nat
deriving Repr, DecidableEq

/-- Failure modes of `Table.serialize`: Python raises `OverflowError` from
`int.to_bytes` when the identifier does not fit 6 bytes (including negative
values), and `ValueError` ("row serialization failed; body too long", the
spec's `RowTooLargeError`) when the encoded body exceeds `BODY_SIZE`. -/
inductive SerializeError where
  | idOverflow
  | rowTooLarge
deriving Repr, DecidableEq

/-- Little-endian encoding of `v` into `n` bytes, as `int.to_bytes(n, sys.byteorder)`
on a little-endian host (it raises instead of truncating; the truncation here is
dead code because `serialize` checks the range first). -/
def toBytesLE : Nat → Nat → List Nat
  | 0, _ => []
  | n + 1, v => (v % 256) :: toBytesLE n (v / 256)

/-- Little-endian decoding, as `int.from_bytes(_, sys.byteorder)`. -/
def fromBytesLE : List Nat → Nat
  | [] => 0
  | b :: bs => b + 256 * fromBytesLE bs

/-- `bytes.rstrip(b'\x00')`: remove trailing zero bytes. -/
def rstripZeros (bs : List Nat) : List Nat :=
  (bs.reverse.dropWhile (· == 0)).reverse

/-- `Table.serialize` (src/learndb.py lines 374-389): the identifier is
encoded first (`row.identifier.to_bytes(ID_SIZE, sys.byteorder)`, which
raises `OverflowError` when out of range), then the body length is checked
against `BODY_SIZE`, then the 64-byte cell is assembled: 6 id bytes, the
body bytes, zero padding. -/
def Table.serialize (row : Row) : Except SerializeError (List Nat) :=
  if row.identifier < 0 ∨ (2 : Int) ^ (8 * ID_SIZE) ≤ row.identifier then
    .error .idOverflow
  else
    let ser_id := toBytesLE ID_SIZE row.identifier.toNat
    if BODY_SIZE < row.body.length then
      .error .rowTooLarge
    else
      .ok (ser_id ++ row.body ++ List.replicate (BODY_SIZE - row.body.length) 0)

/-- `Table.deserialize` (src/learndb.py lines 391-407): slice the id bytes
and the body bytes, decode the id, strip trailing zero bytes from the body. -/
def Table.deserialize (row_bytes : List Nat) : Row :=
  let id_bstr := (row_bytes.drop ID_OFFSET).take ID_SIZE
  let body_bstr := (row_bytes.drop BODY_OFFSET).take BODY_SIZE
  { identifier := Int.ofNat (fromBytesLE id_bstr)
    body := rstripZeros body_bstr }

/-! ## Pager (src/learndb.py: class `Pager`) -/

/-- A page: a byte list (a `bytearray` of length `PAGE_SIZE` in the code). -/
abbrev Page := List Nat

/-- Failure modes of the pager. The Python code prints a message and calls
`sys.exit(EXIT_FAILURE)` (or trips an `assert`); the spec names these
`OutOfBoundsError` (page number at or beyond `TABLE_MAX_PAGES`),
`CorruptFileError` on open (file length not a page multiple) and
`corruptRead` for the short-read assertion inside `get_page`. -/
inductive PagerError where
  | outOfBounds
  | corruptFile
  | corruptRead
  | nullFlush
deriving Repr, DecidableEq

/-- Pager state (src/learndb.py lines 115-126): the slot table `pages`
(`TABLE_MAX_PAGES` entries, `None` for unallocated), the file length read
once at open, the current backing-file contents, and the tracked total
page count `num_pages`. -/
structure Pager where
  pages : List (Option Page)
  file_length : Nat
  file : List Nat
  num_pages : Nat
deriving Repr, DecidableEq

/-- `Pager.get_unused_page_num` (src/learndb.py lines 168-173). -/
def Pager.get_unused_page_num (p : Pager) : Nat :=
  p.num_pages

/-- The tail of a `get_page` cache miss (src/learndb.py lines 208-213):
store the page in its slot, bump `num_pages` when `page_num >= num_pages`,
return the page together with the new state. -/
def Pager.cache_page (p : Pager) (page_num : Nat) (page : Page) : Page × Pager :=
  (page, { p with
            pages := p.pages.set page_num (some page)
            num_pages := if p.num_pages ≤ page_num then p.num_pages + 1
                         else p.num_pages })

/-- `Pager.get_page` (src/learndb.py lines 184-213). Out-of-bounds page
numbers exit; on a cache miss the page is read from the file when it lies
below the on-disk extent (the assertion demands a full `PAGE_SIZE` read),
and is zero-filled otherwise; the slot is then cached and `num_pages` is
bumped when `page_num >= num_pages`. Returns the page plus the new state. -/
def Pager.get_page (p : Pager) (page_num : Nat) : Except PagerError (Page × Pager) :=
  if TABLE_MAX_PAGES ≤ page_num then
    .error .outOfBounds
  else
    match p.pages.getD page_num none with
    | some page => .ok (page, p)
    | none =>
      if page_num < p.file_length / PAGE_SIZE then
        if ((p.file.drop (page_num * PAGE_SIZE)).take PAGE_SIZE).length = PAGE_SIZE then
          .ok (p.cache_page page_num ((p.file.drop (page_num * PAGE_SIZE)).take PAGE_SIZE))
        else
          .error .corruptRead
      else
        .ok (p.cache_page page_num (List.replicate PAGE_SIZE 0))

/-- The warm-up loop of `Pager.open_file` (src/learndb.py lines 154-156):
`get_page` on each listed page number in turn, threading the state. -/
def Pager.load_pages (p : Pager) : List Nat → Except PagerError Pager
  | [] => .ok p
  | n :: ns =>
    match p.get_page n with
    | .ok (_, p') => p'.load_pages ns
    | .error e => .error e

/-- `Pager.__init__` plus `Pager.open_file` (src/learndb.py lines 115-156),
with the file system abstracted to the current file contents: start with an
all-`None` slot table, record the file length, refuse files whose length is
not a whole number of pages, set `num_pages` from the file length, and warm
the cache by fetching every on-disk page. -/
def Pager.open_file (file : List Nat) : Except PagerError Pager :=
  if file.length % PAGE_SIZE ≠ 0 then
    .error .corruptFile
  else
    Pager.load_pages
      { pages := List.replicate TABLE_MAX_PAGES none
        file_length := file.length
        file := file
        num_pages := file.length / PAGE_SIZE }
      (List.range (file.length / PAGE_SIZE))

/-- Writing `data` into a file at byte offset `off` (`seek` + `write`):
bytes before the offset are kept (zero padding fills any gap past the old
end of file, per POSIX), `data` replaces the next `data.length` bytes, and
any bytes after the written region survive. -/
def writeAt (file : List Nat) (off : Nat) (data : List Nat) : List Nat :=
  ((file ++ List.replicate (off - file.length) 0).take off)
    ++ data ++ file.drop (off + data.length)

/-- `Pager.flush_page` (src/learndb.py lines 226-239): exit on a `None`
slot, otherwise write the page at byte offset `page_num * PAGE_SIZE`. -/
def Pager.flush_page (p : Pager) (page_num : Nat) : Except PagerError Pager :=
  match p.pages.getD page_num none with
  | none => .error .nullFlush
  | some page => .ok { p with file := writeAt p.file (page_num * PAGE_SIZE) page }

/-- The loop of `Pager.close` over a list of page numbers, skipping `None`
slots (src/learndb.py lines 221-224). -/
def Pager.close_loop (p : Pager) : List Nat → Pager
  | [] => p
  | n :: ns =>
    match p.pages.getD n none with
    | none => Pager.close_loop p ns
    | some page =>
      Pager.close_loop { p with file := writeAt p.file (n * PAGE_SIZE) page } ns

/-- `Pager.close` (src/learndb.py lines 215-224): flush every cached page
with number below `num_pages`. -/
def Pager.close (p : Pager) : Pager :=
  p.close_loop (List.range p.num_pages)

/-- Pager states reachable through the pager interface alone: any state
produced by `open_file`, extended by arbitrary successful `get_page` calls.
Used to interpret the spec's "in every reachable pager state". -/
inductive Reachable : Pager → Prop where
  | openFile (file : List Nat) (p : Pager) :
      Pager.open_file file = .ok p → Reachable p
  | step (p : Pager) (page_num : Nat) (page : Page) (p' : Pager) :
      Reachable p → p.get_page page_num = .ok (page, p') → Reachable p'

/-- Disciplined reachability: as `Reachable`, but `get_page` is only ever
called with a page number at most the current `num_pages` — which is how
the engine uses the pager (existing pages come from node pointers below
`num_pages`; fresh pages come from `get_unused_page_num = num_pages`).
A third step models the B-tree mutating a cached page in place (Python
mutates the `bytearray`; its length never changes). -/
inductive DReach : Pager → Prop where
  | openFile (file : List Nat) (p : Pager) :
      Pager.open_file file = .ok p → DReach p
  | step (p : Pager) (page_num : Nat) (page : Page) (p' : Pager) :
      DReach p → page_num ≤ p.num_pages → p.get_page page_num = .ok (page, p') →
      DReach p'
  | modify (p : Pager) (page_num : Nat) (old new : Page) :
      DReach p → p.pages.getD page_num none = some old →
      new.length = old.length →
      DReach { p with pages := p.pages.set page_num (some new) }

/-- The pager invariant maintained by disciplined use: the slot table has
exactly `TABLE_MAX_PAGES` entries; slots below `num_pages` hold pages of
length `PAGE_SIZE`; slots at or above `num_pages` are unallocated; the file
length recorded at open is a whole number of pages, is the length of the
current file, and counts at most `num_pages` pages. -/
def PagerInv (p : Pager) : Prop :=
  p.pages.length = TABLE_MAX_PAGES ∧
  (∀ j, j < p.num_pages → ∃ page, p.pages.getD j none = some page ∧
    page.length = PAGE_SIZE) ∧
  (∀ j, p.num_pages ≤ j → p.pages.getD j none = none) ∧
  p.file_length % PAGE_SIZE = 0 ∧
  p.file.length = p.file_length ∧
  p.file_length / PAGE_SIZE ≤ p.num_pages ∧
  p.num_pages ≤ TABLE_MAX_PAGES

/-- Concatenation of the cached pages with numbers `i, i+1, ..., i+cnt-1`
(`[]` standing in for an unallocated slot, which never arises under
`PagerInv`) — the file contents `Pager.close` produces. -/
def catPagesFrom (pages : List (Option Page)) (i : Nat) : Nat → List Nat
  | 0 => []
  | cnt + 1 => ((pages.getD i none).getD []) ++ catPagesFrom pages (i + 1) cnt

/-- The pager state right after opening an empty (length-0) file. -/
def pagerEmpty : Pager :=
  { pages := List.replicate TABLE_MAX_PAGES none
    file_length := 0
    file := []
    num_pages := 0 }

/-- The pager state reached from `pagerEmpty` by the single call
`get_page 1`: slot 1 is cached, yet `num_pages` is only 1. -/
def pagerAfterGetPageOne : Pager :=
  { pages := (List.replicate TABLE_MAX_PAGES none).set 1
      (some (List.replicate PAGE_SIZE 0))
    file_length := 0
    file := []
    num_pages := 1 }

/-- A pager over a one-page file, with a cold cache. -/
def pagerOneFilePage : Pager :=
  { pages := List.replicate TABLE_MAX_PAGES none
    file_length := PAGE_SIZE
    file := List.replicate PAGE_SIZE 7
    num_pages := 1 }

/-- A pager whose recorded file length promises one page but whose backing
file is empty — the short-read situation `get_page` asserts against. -/
def pagerShortRead : Pager :=
  { pages := List.replicate TABLE_MAX_PAGES none
    file_length := PAGE_SIZE
    file := []
    num_pages := 1 }

/-! ## B-tree (spec-modelled)

Modelled from the spec: `src/learndb.py` imports `Tree` from the `btree`
module, which is not among the source files; the tree algorithm below
follows spec §4.2 (search by least separator ≥ key with ties to the
covering child, duplicate rejection at the leaf, in-place insert while the
leaf has spare capacity, lower-biased even split on overflow — `ceil(n/2)`
cells stay, counting the new cell before choosing the split point —
separator = max key of the lower half, recursive upward propagation, and a
brand-new root above the two halves when the root splits) and §3 (leaf
cells ordered by key; an internal node keeps (child, max-key-of-child)
pairs plus a rightmost child holding the keys greater than the last listed
key). Page numbers and parent pointers are abstracted away: the node graph
is represented directly as a tree, which the spec's invariants make
equivalent (§3: every non-root node has exactly one parent referencing it).
Capacities `maxLeafCells`/`maxInternalKeys` are constants derived from the
(unavailable) node layout, so they are parameters `L` and `M` here. -/

/-- Serialized row payload handed to the tree (spec §6: the core receives a
key and a pre-serialized payload). -/
abbrev Payload := List Nat

mutual
/-- A B-tree node (spec §3): a leaf holds ordered (key, payload) cells; an
internal node holds ordered (child, max-key) pairs plus a right child. -/
inductive BTNode : Type where
  | leafN (cells : List (Int × Payload))
  | internalN (children : BTChildren) (rightChild : BTNode)
deriving Repr, DecidableEq

/-- The listed (child, separator-key) pairs of an internal node, where each
pair's key is the maximum key in that child's subtree. -/
inductive BTChildren : Type where
  | nil
  | cons (child : BTNode) (key : Int) (rest : BTChildren)
deriving Repr, DecidableEq
end

/-- The listed pairs of an internal node as a plain list. -/
def BTChildren.toPairs : BTChildren → List (BTNode × Int)
  | .nil => []
  | .cons c k rest => (c, k) :: rest.toPairs

/-- Rebuild a children sequence from a list of pairs. -/
def BTChildren.ofPairs : List (BTNode × Int) → BTChildren
  | [] => .nil
  | (c, k) :: rest => .cons c k (BTChildren.ofPairs rest)

mutual
/-- In-order sequence of (key, payload) cells of the tree: the table's
logical contents in key order — the order spec §4.3 intends a full
cursor scan to visit (leftmost descent, then leaf-by-leaf left-to-right
traversal). -/
def BTNode.toList : BTNode → List (Int × Payload)
  | .leafN cells => cells
  | .internalN cs rc => cs.scanAux ++ rc.toList

/-- In-order cells of the listed children of an internal node. -/
def BTChildren.scanAux : BTChildren → List (Int × Payload)
  | .nil => []
  | .cons c _ rest => c.toList ++ rest.scanAux
end

/-- Keys of a cell sequence. -/
def cellKeys (cells : List (Int × Payload)) : List Int :=
  cells.map Prod.fst

/-- Key of the last cell (the node's max key for a sorted leaf); `0` is a
junk default never used on empty sequences. -/
def lastKey (cells : List (Int × Payload)) : Int :=
  ((cells.getLast?).map Prod.fst).getD 0

/-- Insertion into a sorted cell sequence (the leaf-level step of spec
§4.2's `insert`): walk to the insertion point, fail (`none`, the spec's
`DuplicateKeyError`) on an exact key match, otherwise place the new cell. -/
def insertCells (k : Int) (v : Payload) : List (Int × Payload) → Option (List (Int × Payload))
  | [] => some [(k, v)]
  | (k', v') :: rest =>
    if k < k' then some ((k, v) :: (k', v') :: rest)
    else if k = k' then none
    else (insertCells k v rest).map (fun cs => (k', v') :: cs)

/-- Result of inserting into a subtree: either the updated node, or the two
halves of a split plus the separator key (max key of the left half) to
propagate upward. -/
inductive InsertResult : Type where
  | one (n : BTNode)
  | two (l : BTNode) (sep : Int) (r : BTNode)
deriving Repr, DecidableEq

/-- Rebalance an updated internal node (spec §4.2 upward propagation): if
its listed pairs fit the capacity `M` it stands; otherwise split it,
keeping `ceil(children/2)` children on the left — the left half's last
listed child becomes its right child and that pair's key is the separator
pushed up; the upper pairs and the old right child form the right half.
The `[]` fallback is unreachable (`j - 1 < ps.length` whenever
`M < ps.length` and `2 ≤ M`). -/
def rebalanceInternal (M : Nat) (cs : BTChildren) (rc : BTNode) : InsertResult :=
  if cs.toPairs.length ≤ M then
    .one (.internalN cs rc)
  else
    match cs.toPairs.drop ((cs.toPairs.length + 2) / 2 - 1) with
    | [] => .one (.internalN cs rc)
    | (cj, kj) :: rightRest =>
      .two (.internalN (BTChildren.ofPairs
          (cs.toPairs.take ((cs.toPairs.length + 2) / 2 - 1))) cj) kj
        (.internalN (BTChildren.ofPairs rightRest) rc)

mutual
/-- Insert into a subtree (spec §4.2 `insert`): at a leaf, place the cell
in key order (duplicate ⇒ `none`), splitting when the leaf would exceed `L`
cells — `ceil(n/2)` cells stay, the rest move, the separator is the lower
half's max key. At an internal node, descend into the covering child and
rebalance. -/
def BTNode.insertAux (L M : Nat) (k : Int) (v : Payload) : BTNode → Option InsertResult
  | .leafN cells =>
    match insertCells k v cells with
    | none => none
    | some cells' =>
      if cells'.length ≤ L then
        some (.one (.leafN cells'))
      else
        let keep := (cells'.length + 1) / 2
        some (.two (.leafN (cells'.take keep)) (lastKey (cells'.take keep))
          (.leafN (cells'.drop keep)))
  | .internalN cs rc =>
    match BTChildren.insertAux L M k v cs rc with
    | none => none
    | some (cs', rc') => some (rebalanceInternal M cs' rc')
termination_by t => sizeOf t
decreasing_by
  all_goals simp_wf

/-- Descend into the listed children: the first pair whose key is ≥ `k`
covers `k` (ties to that child, whose subtree holds its max key); if every
listed key is < `k`, the right child covers `k`. A child split inserts the
new (left-half, separator) pair before the updated position. Returns the
updated pair list and right child, possibly one pair over capacity. -/
def BTChildren.insertAux (L M : Nat) (k : Int) (v : Payload) :
    BTChildren → BTNode → Option (BTChildren × BTNode)
  | .nil, rc =>
    match BTNode.insertAux L M k v rc with
    | none => none
    | some (.one rc') => some (.nil, rc')
    | some (.two l sep r) => some (.cons l sep .nil, r)
  | .cons c ck rest, rc =>
    if k ≤ ck then
      match BTNode.insertAux L M k v c with
      | none => none
      | some (.one c') => some (.cons c' ck rest, rc)
      | some (.two l sep r) => some (.cons l sep (.cons r ck rest), rc)
    else
      match BTChildren.insertAux L M k v rest rc with
      | none => none
      | some (rest', rc') => some (.cons c ck rest', rc')
termination_by cs rc => sizeOf cs + sizeOf rc
decreasing_by
  all_goals simp_wf
  all_goals omega
end

/-- `Tree.insert(key, payload)` at the root (spec §4.2): a root split
creates a brand-new internal root one level above, with the two halves as
its children; `none` is the spec's `DuplicateKeyError`, after which no
state was mutated. -/
def BTNode.insertTop (L M : Nat) (t : BTNode) (k : Int) (v : Payload) : Option BTNode :=
  match t.insertAux L M k v with
  | none => none
  | some (.one t') => some t'
  | some (.two l sep r) => some (.internalN (.cons l sep .nil) r)

/-- The empty tree: a root leaf with no cells (permissible root underflow,
spec §4.2). -/
def emptyTree : BTNode := .leafN []

/-- `Cursor.insert_row` (src/learndb.py lines 289-295): serialize the row
first, then hand identifier and payload to `Tree.insert`; a serialization
failure therefore surfaces before the tree (and any page) is touched. -/
def Cursor.insert_row (L M : Nat) (t : BTNode) (row : Row) :
    Except SerializeError (Option BTNode) :=
  match Table.serialize row with
  | .error e => .error e
  | .ok payload => .ok (t.insertTop L M row.identifier payload)

/-- Run a sequence of insert attempts from a starting tree, returning the
final tree and the number of successful inserts (failed attempts leave the
tree as it was). -/
def runInserts (L M : Nat) : List (Int × Payload) → BTNode → BTNode × Nat
  | [], t => (t, 0)
  | (k, v) :: rest, t =>
    match BTNode.insertTop L M t k v with
    | some t' =>
      let res := runInserts L M rest t'
      (res.1, res.2 + 1)
    | none => runInserts L M rest t

/-- Structural well-formedness of a tree (spec §3 invariants, key order
aside): every listed pair of an internal node carries a nonempty child
whose max cell key is the pair's key, and the right child is nonempty. -/
inductive BTNode.WF : BTNode → Prop where
  | leaf (cells) : BTNode.WF (.leafN cells)
  | internal (cs : BTChildren) (rc : BTNode) :
      (∀ p ∈ cs.toPairs, BTNode.WF p.1) →
      (∀ p ∈ cs.toPairs, p.1.toList ≠ [] ∧ lastKey p.1.toList = p.2) →
      BTNode.WF rc → rc.toList ≠ [] →
      BTNode.WF (.internalN cs rc)

/-- Key order over the whole tree (spec §3: keys strictly increasing). -/
def BTNode.Sorted (t : BTNode) : Prop :=
  List.Pairwise (· < ·) (cellKeys t.toList)

/-- In-order cells produced by an insertion result: the updated node's
cells, or the concatenation of the two halves of a split. -/
def InsertResult.toCells : InsertResult → List (Int × Payload)
  | .one n => n.toList
  | .two l _ r => l.toList ++ r.toList

/-- In-order cells of a pair list (mirrors `BTChildren.scanAux`). -/
def pairsCells : List (BTNode × Int) → List (Int × Payload)
  | [] => []
  | (c, _) :: rest => c.toList ++ pairsCells rest

/-- The per-pair invariants of an internal node's listed children: each
child is well-formed, nonempty, and carries its max key as separator. -/
def PairsWF (ps : List (BTNode × Int)) : Prop :=
  (∀ p ∈ ps, BTNode.WF p.1) ∧
  (∀ p ∈ ps, p.1.toList ≠ [] ∧ lastKey p.1.toList = p.2)

/-- Well-formedness of an insertion result, as needed by the caller: an
updated node is well-formed; both halves of a split are well-formed and
nonempty, and the separator is the lower half's max key. -/
def InsertResult.Good : InsertResult → Prop
  | .one n => n.WF
  | .two l sep r => l.WF ∧ r.WF ∧ l.toList ≠ [] ∧ r.toList ≠ [] ∧
      lastKey l.toList = sep

/-! ## Page-level nodes and the cursor (src/learndb.py: class `Cursor`)

The cursor methods are in src; the node accessors they call
(`Tree.get_node_type`, `leaf_node_num_cells`, `internal_node_child`,
`internal_node_find`, `get_node_max_key`, ...) live in the absent
`btree.py`. Modelled from the spec: a page holds a tagged node (spec §9:
"represent node kind as a tagged union/variant with shared header fields"),
whose header carries the is-root flag and parent page number (§3); the
accessors are field reads. `internal_node_find` returns the index of the
listed child covering the key, or a sentinel (`INTERNAL_NODE_MAX_CELLS` in
the Python, `none` here, the unknown constant being private to `btree.py`)
when the key lies in the right child (§4.2 search rule: least separator ≥
key, ties to that child). `get_node_max_key` takes a leaf's last cell key
and recurses into an internal node's right child (§4.2). The page table is
a partial map from page numbers (a `get_page` failure — absent page — is
`none`); the recursive cursor walks take a fuel argument, with exhaustion
(`none`) standing for non-termination, so that `some` means the Python
completes normally and `none` covers every failure an assertion or missing
page could raise. -/

/-- A page interpreted as a B-tree node (spec §3): common header (type tag
via the constructor, is-root flag, parent page number) plus leaf cells or
internal (child page, max-key) pairs and the right-child page number. -/
inductive PNode where
  | pleaf (is_root : Bool) (parent : Nat) (cells : List (Int × Payload))
  | pinternal (is_root : Bool) (parent : Nat) (children : List (Nat × Int))
      (right_child : Nat)
deriving Repr, DecidableEq

/-- `Tree.is_node_root`. -/
def PNode.is_root : PNode → Bool
  | .pleaf r _ _ => r
  | .pinternal r _ _ _ => r

/-- `Tree.get_parent_page_num`. -/
def PNode.parent : PNode → Nat
  | .pleaf _ p _ => p
  | .pinternal _ p _ _ => p

/-- Cursor state (src/learndb.py lines 249-255): current page, current
cell index, end-of-table flag. -/
structure PCursor where
  page_num : Nat
  cell_num : Nat
  end_of_table : Bool
deriving Repr, DecidableEq

/-- `Tree.get_node_max_key`, modelled from spec §4.2: a leaf's max key is
its last cell's key; an internal node recurses into its right child. -/
def get_node_max_key (ps : Nat → Option PNode) : Nat → PNode → Option Int
  | _, .pleaf _ _ cells => (cells.getLast?).map Prod.fst
  | 0, .pinternal _ _ _ _ => none
  | fuel + 1, .pinternal _ _ _ rc =>
    match ps rc with
    | none => none
    | some node => get_node_max_key ps fuel node

/-- `Tree.internal_node_find`, modelled from spec §4.2: binary-search the
ordered separators for the least key ≥ target, choosing that child; `none`
(the Python sentinel `INTERNAL_NODE_MAX_CELLS`) means every separator is
smaller and the key lies in the right child. -/
def internal_node_find (children : List (Nat × Int)) (key : Int) : Option Nat :=
  match children with
  | [] => none
  | p :: rest =>
    if key ≤ p.2 then some 0
    else (internal_node_find rest key).map (· + 1)

/-- `Cursor.first_leaf` (src/learndb.py lines 257-271): descend from the
given page through child 0 while the node is internal — asserting the
internal node has at least one key — then place the cursor on cell 0 of
the leaf, with `end_of_table` exactly when that leaf has zero cells. -/
def first_leaf (ps : Nat → Option PNode) : Nat → Nat → Option PCursor
  | 0, _ => none
  | fuel + 1, pn =>
    match ps pn with
    | none => none
    | some (.pleaf _ _ cells) =>
      some { page_num := pn, cell_num := 0, end_of_table := cells.length = 0 }
    | some (.pinternal _ _ [] _) => none
    | some (.pinternal _ _ ((child, _) :: _) _) => first_leaf ps fuel child

/-- `Cursor.table_start` / `Cursor.__init__` (src/learndb.py lines
249-255, 273-278): a cursor at page 0 moved to the first leaf. -/
def table_start (ps : Nat → Option PNode) (fuel : Nat) : Option PCursor :=
  first_leaf ps fuel 0

/-- `Cursor.get_row` (src/learndb.py lines 280-287): read the cell under
the cursor from the current leaf and deserialize it. -/
def get_row (ps : Nat → Option PNode) (c : PCursor) : Option Row :=
  match ps c.page_num with
  | some (.pleaf _ _ cells) =>
    (cells.get? c.cell_num).map (fun cell => Table.deserialize cell.2)
  | _ => none

/-- How a cursor operation can fail to return normally: `assertFail` is a
tripped assert or a read of a malformed page (a tree-invariant
violation); `nameError` is the `NameError` exception raised at
src/learndb.py line 328 by the comparison `child_num ==
INTERNAL_NODE_MAX_CELLS` — that name is defined nowhere in learndb.py
and line 14 imports only `Tree`, `TreeInsertResult` and `NodeType` from
`btree`, so the lookup fails at runtime; `fuelOut` marks an embedded
loop that did not finish within its iteration bound. -/
inductive CursorErr where
  | assertFail
  | nameError
  | fuelOut
deriving Repr, DecidableEq

/-- `Cursor.next_leaf` (src/learndb.py lines 308-343): at the root there
is no next leaf (`end_of_table`). Otherwise the code computes the node's
max key, its parent page and `internal_node_find` on the parent — and
then line 328 evaluates `child_num == INTERNAL_NODE_MAX_CELLS`. Python
looks the right-hand name up when the comparison is evaluated, and it is
unbound (see `CursorErr`), so the method raises `NameError` whatever
`child_num` is; the sibling/climb code of lines 329-343 is unreachable.
-/
def next_leaf (ps : Nat → Option PNode) (fuel : Nat) (c : PCursor) :
    Except CursorErr PCursor :=
  match ps c.page_num with
  | none => .error .assertFail
  | some node =>
    if node.is_root then
      .ok { c with end_of_table := true }
    else
      match get_node_max_key ps fuel node with
      | none => .error .assertFail
      | some node_max_value =>
        match ps node.parent with
        | none => .error .assertFail
        | some (.pleaf _ _ _) => .error .assertFail
        | some (.pinternal _ _ children _) =>
          match internal_node_find children node_max_value with
          | none => .error .nameError
          | some _ => .error .nameError

/-- `Cursor.advance` (src/learndb.py lines 345-358): on the last cell of
the current leaf (`cell_num >= num_cells - 1`) move to the next leaf,
otherwise step to the next cell; a cursor not on a leaf is inconsistent. -/
def advance (ps : Nat → Option PNode) (fuel : Nat) (c : PCursor) :
    Except CursorErr PCursor :=
  match ps c.page_num with
  | some (.pleaf _ _ cells) =>
    if cells.length ≤ c.cell_num + 1 then
      next_leaf ps fuel c
    else
      .ok { c with cell_num := c.cell_num + 1 }
  | _ => .error .assertFail

/-- The scan loop of `execute_select` (src/learndb.py lines 466-469):
while the cursor is not at the end of the table, read the row under the
cursor and advance, yielding the rows in order; `advance` raising
propagates out of the loop. The fuel bounds the iteration count. -/
def scan_loop (ps : Nat → Option PNode) : Nat → PCursor → Except CursorErr (List Row)
  | 0, _ => .error .fuelOut
  | fuel + 1, c =>
    if c.end_of_table then .ok []
    else
      match get_row ps c with
      | none => .error .assertFail
      | some r =>
        match advance ps fuel c with
        | .error e => .error e
        | .ok c' => (scan_loop ps fuel c').map (fun rs => r :: rs)

/-- `execute_select` (src/learndb.py lines 462-469): a cursor to the
start of the table, then the scan loop; the result is the sequence of
rows the loop prints, or the exception that escaped it. -/
def execute_select (ps : Nat → Option PNode) (fuel : Nat) :
    Except CursorErr (List Row) :=
  match table_start ps fuel with
  | none => .error .assertFail
  | some c => scan_loop ps fuel c

mutual
/-- Height of a tree node (leaves at height 0). -/
def BTNode.heightB : BTNode → Nat
  | .leafN _ => 0
  | .internalN cs rc => max cs.heightC rc.heightB + 1

/-- Max height among the listed children. -/
def BTChildren.heightC : BTChildren → Nat
  | .nil => 0
  | .cons c _ rest => max c.heightB rest.heightC
end

/-- Cells of the leftmost leaf of a tree (spec §4.3 `tableStart` target). -/
def BTNode.headCells : BTNode → List (Int × Payload)
  | .leafN cells => cells
  | .internalN .nil rc => rc.headCells
  | .internalN (.cons c _ _) _ => c.headCells

mutual
/-- The page table `ps` represents tree `s` at page `pn`, whose node
header carries root flag `isR` and parent page number `par`; children
carry their actual parent's page number and a cleared root flag (spec §3
node-header invariant). -/
inductive ReprTree (ps : Nat → Option PNode) : Nat → Bool → Nat → BTNode → Prop where
  | leaf (pn : Nat) (isR : Bool) (par : Nat) (cells : List (Int × Payload)) :
      ps pn = some (.pleaf isR par cells) →
      ReprTree ps pn isR par (.leafN cells)
  | internal (pn : Nat) (isR : Bool) (par : Nat) (pcs : List (Nat × Int))
      (prc : Nat) (cs : BTChildren) (rc : BTNode) :
      ps pn = some (.pinternal isR par pcs prc) →
      ReprChildren ps pn pcs cs →
      ReprTree ps prc false pn rc →
      ReprTree ps pn isR par (.internalN cs rc)

/-- The listed (child page, key) pairs of the internal node at page
`parent` represent the listed children, in order. -/
inductive ReprChildren (ps : Nat → Option PNode) : Nat → List (Nat × Int) → BTChildren → Prop where
  | nil (parent : Nat) : ReprChildren ps parent [] .nil
  | cons (parent cpn : Nat) (ck : Int) (c : BTNode) (prest : List (Nat × Int))
      (rest : BTChildren) :
      ReprTree ps cpn false parent c →
      ReprChildren ps parent prest rest →
      ReprChildren ps parent ((cpn, ck) :: prest) (.cons c ck rest)
end

/-- Leaf page `pn` with cells `cells` occurs in the subtree `s`
represented at page `q`: either `s` is that leaf, or it lies inside the
`i`-th listed child, or inside the right child. -/
inductive LeafInT (ps : Nat → Option PNode) : Nat → BTNode → Nat → List (Int × Payload) → Prop where
  | here (q : Nat) (isR : Bool) (par : Nat) (cells : List (Int × Payload)) :
      ps q = some (.pleaf isR par cells) →
      LeafInT ps q (.leafN cells) q cells
  | inListed (q : Nat) (isR : Bool) (par : Nat) (pcs : List (Nat × Int))
      (prc : Nat) (cs : BTChildren) (rc : BTNode) (i cpn : Nat) (ck : Int)
      (c : BTNode) (pn : Nat) (cells : List (Int × Payload)) :
      ps q = some (.pinternal isR par pcs prc) →
      ReprChildren ps q pcs cs →
      ReprTree ps prc false q rc →
      pcs.get? i = some (cpn, ck) →
      cs.toPairs.get? i = some (c, ck) →
      LeafInT ps cpn c pn cells →
      LeafInT ps q (.internalN cs rc) pn cells
  | inRight (q : Nat) (isR : Bool) (par : Nat) (pcs : List (Nat × Int))
      (prc : Nat) (cs : BTChildren) (rc : BTNode) (pn : Nat)
      (cells : List (Int × Payload)) :
      ps q = some (.pinternal isR par pcs prc) →
      ReprChildren ps q pcs cs →
      ReprTree ps prc false q rc →
      LeafInT ps prc rc pn cells →
      LeafInT ps q (.internalN cs rc) pn cells

/-- The spec's minimum-fill discipline relevant to the cursor: no internal
node has zero listed keys (spec §4.2: "No node is ever allowed to hold
zero cells except a brand-new, never-yet-written root" — `first_leaf`
asserts this). -/
inductive TreeOk : BTNode → Prop where
  | leaf (cells) : TreeOk (.leafN cells)
  | internal (cs : BTChildren) (rc : BTNode) :
      cs ≠ .nil →
      (∀ p ∈ cs.toPairs, TreeOk p.1) →
      TreeOk rc →
      TreeOk (.internalN cs rc)

/-- A concrete two-leaf page table: an internal root at page 0 whose
listed child is page 1 (max key 10) and whose right child is page 2. -/
def psTwoLeaf : Nat → Option PNode :=
  fun n =>
    if n = 0 then some (.pinternal true 0 [(1, 10)] 2)
    else if n = 1 then some (.pleaf false 0 [(5, []), (10, [])])
    else if n = 2 then some (.pleaf false 0 [(15, []), (20, [])])
    else none

/-- The tree represented by `psTwoLeaf`. -/
def tTwoLeaf : BTNode :=
  .internalN (.cons (.leafN [(5, []), (10, [])]) 10 .nil)
    (.leafN [(15, []), (20, [])])

/-! ## Theorems: row codec -/

theorem toBytesLE_length (n v : Nat) : (toBytesLE n v).length = n := by
  induction n generalizing v with
  | zero => rfl
  | succ n ih => simp [toBytesLE, ih]

theorem fromBytesLE_toBytesLE (n v : Nat) (h : v < 256 ^ n) :
    fromBytesLE (toBytesLE n v) = v := by
  induction n generalizing v with
  | zero =>
    simp only [pow_zero, Nat.lt_one_iff] at h
    simp [toBytesLE, fromBytesLE, h]
  | succ n ih =>
    have hv : v / 256 < 256 ^ n := by
      rw [Nat.div_lt_iff_lt_mul (by norm_num)]
      calc v < 256 ^ (n + 1) := h
        _ = 256 ^ n * 256 := by ring
    simp only [toBytesLE, fromBytesLE, ih _ hv]
    omega

theorem dropWhile_replicate_zero_append (n : Nat) (l : List Nat) :
    List.dropWhile (· == 0) (List.replicate n 0 ++ l) = List.dropWhile (· == 0) l := by
  induction n with
  | zero => rfl
  | succ n ih => simp [List.replicate_succ, List.dropWhile, ih]

theorem rstripZeros_append_replicate (bs : List Nat) (n : Nat) :
    rstripZeros (bs ++ List.replicate n 0) = rstripZeros bs := by
  unfold rstripZeros
  rw [List.reverse_append, List.reverse_replicate, dropWhile_replicate_zero_append]

theorem rstripZeros_eq_self (bs : List Nat) (h : bs.getLast? ≠ some 0) :
    rstripZeros bs = bs := by
  unfold rstripZeros
  match hrev : bs.reverse with
  | [] =>
    have : bs = [] := by simpa using congrArg List.reverse hrev
    simp [this]
  | b :: t =>
    have hlast : bs.getLast? = some b := by
      rw [← List.head?_reverse, hrev]
      rfl
    have hb : ¬ (b == 0) = true := by
      simp only [beq_iff_eq]
      intro h0
      exact h (h0 ▸ hlast)
    rw [List.dropWhile_cons, if_neg hb, ← hrev, List.reverse_reverse]

theorem serialize_ok_of (row : Row) (h0 : 0 ≤ row.identifier)
    (h1 : row.identifier < 2 ^ (8 * ID_SIZE)) (h2 : row.body.length ≤ BODY_SIZE) :
    Table.serialize row =
      .ok (toBytesLE ID_SIZE row.identifier.toNat ++ row.body
        ++ List.replicate (BODY_SIZE - row.body.length) 0) := by
  unfold Table.serialize
  rw [if_neg (by push_neg; exact ⟨h0, h1⟩), if_neg (not_lt.mpr h2)]

theorem deserialize_serialize (row : Row) (h0 : 0 ≤ row.identifier)
    (h1 : row.identifier < 2 ^ (8 * ID_SIZE)) (h2 : row.body.length ≤ BODY_SIZE) :
    Table.deserialize (toBytesLE ID_SIZE row.identifier.toNat ++ row.body
        ++ List.replicate (BODY_SIZE - row.body.length) 0) =
      { identifier := row.identifier, body := rstripZeros row.body } := by
  obtain ⟨idb, hidb, hlen⟩ :
      ∃ idb, toBytesLE ID_SIZE row.identifier.toNat = idb ∧ idb.length = ID_SIZE :=
    ⟨_, rfl, toBytesLE_length _ _⟩
  have hrest : (row.body ++ List.replicate (BODY_SIZE - row.body.length) 0).length
      = BODY_SIZE := by
    simp only [List.length_append, List.length_replicate]
    omega
  rw [hidb]
  simp only [Table.deserialize]
  rw [ID_OFFSET.eq_def, List.drop_zero, List.append_assoc, ← hlen, List.take_left]
  have hBO : BODY_OFFSET = idb.length := by rw [hlen]; rfl
  rw [hBO, List.drop_left, List.take_of_length_le (le_of_eq hrest), ← hidb,
    rstripZeros_append_replicate]
  have hid : Int.ofNat (fromBytesLE (toBytesLE ID_SIZE row.identifier.toNat))
      = row.identifier := by
    rw [fromBytesLE_toBytesLE]
    · exact Int.toNat_of_nonneg h0
    · norm_num [ID_SIZE.eq_def] at h1 ⊢
      omega
  rw [hid]

/-- C2 (counterexample): the round-trip claim fails as stated — the row
with identifier 1 and body bytes `[97, 0]` ("a\x00") serializes
successfully, but deserialization strips the trailing zero byte and returns
the different row with body `[97]`. -/
theorem C2_counterexample :
    (Table.serialize { identifier := 1, body := [97, 0] }).map Table.deserialize
        = .ok { identifier := 1, body := [97] } ∧
      ({ identifier := 1, body := [97] } : Row) ≠ { identifier := 1, body := [97, 0] } := by
  exact ⟨rfl, by decide⟩

/-- C2 (amended): for every row whose identifier fits the 6-byte field
(`0 ≤ id < 2^48`), whose body is at most `BODY_SIZE` bytes, and whose body
does not end in a zero byte, decoding the encoding returns the row exactly
(identifier and body both preserved). -/
theorem C2_roundtrip (row : Row) (h0 : 0 ≤ row.identifier)
    (h1 : row.identifier < 2 ^ (8 * ID_SIZE)) (h2 : row.body.length ≤ BODY_SIZE)
    (h3 : row.body.getLast? ≠ some 0) :
    ∃ bs, Table.serialize row = .ok bs ∧ Table.deserialize bs = row := by
  refine ⟨_, serialize_ok_of row h0 h1 h2, ?_⟩
  rw [deserialize_serialize row h0 h1 h2, rstripZeros_eq_self _ h3]

/-- C2 (witness): the amended round-trip at the concrete row (5, "hi"). -/
theorem C2_roundtrip_witness :
    ∃ bs, Table.serialize { identifier := 5, body := [104, 105] } = .ok bs ∧
      Table.deserialize bs = { identifier := 5, body := [104, 105] } :=
  C2_roundtrip _ (by decide) (by decide) (by decide) (by decide)

/-- C3 (counterexample): "encoding a row whose payload fits always
succeeds" fails as stated — the row with identifier `2^48` and empty body
has a fitting payload, yet serialization fails (with the identifier
overflow, not `RowTooLargeError`), because the identifier is encoded before
the body length is checked. -/
theorem C3_counterexample :
    Table.serialize { identifier := 2 ^ (8 * ID_SIZE), body := [] }
        = .error .idOverflow ∧
      (([] : List Nat).length ≤ BODY_SIZE) := by
  exact ⟨rfl, by decide⟩

/-- C3 (amended): for rows whose identifier fits the 6-byte field,
serialization fails with `RowTooLargeError` exactly when the body exceeds
`BODY_SIZE` bytes, succeeds exactly when the body fits, and a too-long body
makes `Cursor.insert_row` surface the error before the tree (hence any
page) is touched. -/
theorem C3_row_too_large (row : Row) (h0 : 0 ≤ row.identifier)
    (h1 : row.identifier < 2 ^ (8 * ID_SIZE)) :
    (Table.serialize row = .error .rowTooLarge ↔ BODY_SIZE < row.body.length) ∧
    ((∃ bs, Table.serialize row = .ok bs) ↔ row.body.length ≤ BODY_SIZE) ∧
    (∀ L M t, BODY_SIZE < row.body.length →
      Cursor.insert_row L M t row = .error .rowTooLarge) := by
  have hser : Table.serialize row =
      (if BODY_SIZE < row.body.length then .error .rowTooLarge
       else .ok (toBytesLE ID_SIZE row.identifier.toNat ++ row.body
         ++ List.replicate (BODY_SIZE - row.body.length) 0)) := by
    unfold Table.serialize
    rw [if_neg (by push_neg; exact ⟨h0, h1⟩)]
  refine ⟨?_, ?_, ?_⟩
  · rw [hser]
    constructor
    · intro h
      by_contra hc
      rw [if_neg hc] at h
      exact Except.noConfusion h
    · intro h
      rw [if_pos h]
  · rw [hser]
    constructor
    · rintro ⟨bs, hbs⟩
      by_contra hc
      rw [if_pos (not_le.mp hc)] at hbs
      exact Except.noConfusion hbs
    · intro h
      rw [if_neg (not_lt.mpr h)]
      exact ⟨_, rfl⟩
  · intro L M t h
    unfold Cursor.insert_row
    rw [hser, if_pos h]

/-- C3 (witness): at identifier 7, a 59-byte body is rejected with
`RowTooLargeError` (also through `Cursor.insert_row` on the empty tree),
and a 58-byte body is accepted. -/
theorem C3_row_too_large_witness :
    (Table.serialize { identifier := 7, body := List.replicate 59 97 }
        = .error .rowTooLarge ↔ BODY_SIZE < (List.replicate 59 97).length) ∧
    ((∃ bs, Table.serialize { identifier := 7, body := List.replicate 59 97 } = .ok bs)
        ↔ (List.replicate 59 97).length ≤ BODY_SIZE) ∧
    (∀ L M t, BODY_SIZE < (List.replicate 59 97).length →
      Cursor.insert_row L M t { identifier := 7, body := List.replicate 59 97 }
        = .error .rowTooLarge) :=
  C3_row_too_large _ (by decide) (by decide)

/-- C10: serialization succeeds only when the identifier is a non-negative
integer strictly below `2^48`; an identifier outside that range fails (with
the overflow error) no matter the body; and for an identifier in range the
decoded identifier equals the original exactly. -/
theorem C10_identifier_range (row : Row) :
    ((∃ bs, Table.serialize row = .ok bs) →
      0 ≤ row.identifier ∧ row.identifier < 2 ^ (8 * ID_SIZE)) ∧
    ((row.identifier < 0 ∨ 2 ^ (8 * ID_SIZE) ≤ row.identifier) →
      Table.serialize row = .error .idOverflow) ∧
    (∀ bs, Table.serialize row = .ok bs →
      (Table.deserialize bs).identifier = row.identifier) := by
  refine ⟨?_, ?_, ?_⟩
  · rintro ⟨bs, hbs⟩
    unfold Table.serialize at hbs
    by_contra hc
    rw [if_pos (by push_neg at hc; omega)] at hbs
    exact Except.noConfusion hbs
  · intro h
    unfold Table.serialize
    rw [if_pos h]
  · intro bs hbs
    have hrange : 0 ≤ row.identifier ∧ row.identifier < 2 ^ (8 * ID_SIZE) := by
      unfold Table.serialize at hbs
      by_contra hc
      rw [if_pos (by push_neg at hc; omega)] at hbs
      exact Except.noConfusion hbs
    have hfit : row.body.length ≤ BODY_SIZE := by
      unfold Table.serialize at hbs
      rw [if_neg (by push_neg; exact hrange)] at hbs
      by_contra hc
      rw [if_pos (not_le.mp hc)] at hbs
      exact Except.noConfusion hbs
    have := serialize_ok_of row hrange.1 hrange.2 hfit
    rw [this] at hbs
    cases hbs
    rw [deserialize_serialize row hrange.1 hrange.2 hfit]

/-- C10 (witness): the identifier `2^48` is rejected; identifier 9 with
body "a" serializes and decodes back to identifier 9. -/
theorem C10_identifier_range_witness :
    Table.serialize { identifier := 2 ^ (8 * ID_SIZE), body := [97] }
        = .error .idOverflow ∧
    (∀ bs, Table.serialize { identifier := 9, body := [97] } = .ok bs →
      (Table.deserialize bs).identifier = 9) :=
  ⟨(C10_identifier_range _).2.1 (Or.inr (by decide)),
   (C10_identifier_range { identifier := 9, body := [97] }).2.2⟩

/-! ## Theorems: pager -/

theorem get_page_hit (p : Pager) (page_num : Nat) (page : Page)
    (hb : page_num < TABLE_MAX_PAGES) (hs : p.pages.getD page_num none = some page) :
    p.get_page page_num = .ok (page, p) := by
  unfold Pager.get_page
  rw [if_neg (not_le.mpr hb), hs]

theorem get_page_miss_file (p : Pager) (page_num : Nat)
    (hb : page_num < TABLE_MAX_PAGES) (hs : p.pages.getD page_num none = none)
    (hf : page_num < p.file_length / PAGE_SIZE)
    (hr : ((p.file.drop (page_num * PAGE_SIZE)).take PAGE_SIZE).length = PAGE_SIZE) :
    p.get_page page_num
      = .ok (p.cache_page page_num ((p.file.drop (page_num * PAGE_SIZE)).take PAGE_SIZE)) := by
  unfold Pager.get_page
  rw [if_neg (not_le.mpr hb), hs, if_pos hf, if_pos hr]

theorem get_page_miss_short (p : Pager) (page_num : Nat)
    (hb : page_num < TABLE_MAX_PAGES) (hs : p.pages.getD page_num none = none)
    (hf : page_num < p.file_length / PAGE_SIZE)
    (hr : ((p.file.drop (page_num * PAGE_SIZE)).take PAGE_SIZE).length ≠ PAGE_SIZE) :
    p.get_page page_num = .error .corruptRead := by
  unfold Pager.get_page
  rw [if_neg (not_le.mpr hb), hs, if_pos hf, if_neg hr]

theorem get_page_miss_fresh (p : Pager) (page_num : Nat)
    (hb : page_num < TABLE_MAX_PAGES) (hs : p.pages.getD page_num none = none)
    (hf : p.file_length / PAGE_SIZE ≤ page_num) :
    p.get_page page_num = .ok (p.cache_page page_num (List.replicate PAGE_SIZE 0)) := by
  unfold Pager.get_page
  rw [if_neg (not_le.mpr hb), hs, if_neg (not_lt.mpr hf)]

theorem get_page_ne_oob (p : Pager) (page_num : Nat) (hb : page_num < TABLE_MAX_PAGES) :
    p.get_page page_num ≠ .error .outOfBounds := by
  cases hs : p.pages.getD page_num none with
  | some page =>
    rw [get_page_hit p page_num page hb hs]
    simp
  | none =>
    rcases Nat.lt_or_ge page_num (p.file_length / PAGE_SIZE) with hf | hf
    · by_cases hr : ((p.file.drop (page_num * PAGE_SIZE)).take PAGE_SIZE).length = PAGE_SIZE
      · rw [get_page_miss_file p page_num hb hs hf hr]
        simp
      · rw [get_page_miss_short p page_num hb hs hf hr]
        simp
    · rw [get_page_miss_fresh p page_num hb hs hf]
      simp

/-- C5: opening a file whose length is not a whole multiple of `PAGE_SIZE`
fails with the corrupt-file error (the length check precedes the warm-up
loop, so no page is accessed), and a `get_page` cache-miss read below the
on-disk extent that returns fewer bytes than a full page trips the
corrupt-read assertion; in both cases the engine stops. -/
theorem C5_corrupt_file (file : List Nat) (p : Pager) (page_num : Nat) :
    (file.length % PAGE_SIZE ≠ 0 → Pager.open_file file = .error .corruptFile) ∧
    (page_num < TABLE_MAX_PAGES → p.pages.getD page_num none = none →
      page_num < p.file_length / PAGE_SIZE →
      ((p.file.drop (page_num * PAGE_SIZE)).take PAGE_SIZE).length ≠ PAGE_SIZE →
      p.get_page page_num = .error .corruptRead) := by
  constructor
  · intro h
    unfold Pager.open_file
    rw [if_pos h]
  · exact get_page_miss_short p page_num

/-- C5 (witness): a 1-byte file is refused on open, and a cache miss over
an empty backing file that promises one page fails the read assertion. -/
theorem C5_corrupt_file_witness :
    Pager.open_file [0] = .error .corruptFile ∧
      pagerShortRead.get_page 0 = .error .corruptRead :=
  ⟨(C5_corrupt_file [0] pagerShortRead 0).1 (by decide),
   (C5_corrupt_file [0] pagerShortRead 0).2 (by decide) (by decide) (by decide)
     (by decide)⟩

/-- C6: `get_page` fails with the out-of-bounds error exactly when the page
number is at or beyond the fixed `TABLE_MAX_PAGES = 100` capacity; an
in-bounds cache miss below the on-disk page count returns exactly the
`PAGE_SIZE` block of the file at byte offset `page_num * PAGE_SIZE`; an
in-bounds miss at or beyond the on-disk extent returns a zero-filled page. -/
theorem C6_get_page (p : Pager) (page_num : Nat) :
    (p.get_page page_num = .error .outOfBounds ↔ TABLE_MAX_PAGES ≤ page_num) ∧
    (page_num < TABLE_MAX_PAGES → p.pages.getD page_num none = none →
      page_num < p.file_length / PAGE_SIZE →
      ((p.file.drop (page_num * PAGE_SIZE)).take PAGE_SIZE).length = PAGE_SIZE →
      ∃ p', p.get_page page_num
        = .ok ((p.file.drop (page_num * PAGE_SIZE)).take PAGE_SIZE, p')) ∧
    (page_num < TABLE_MAX_PAGES → p.pages.getD page_num none = none →
      p.file_length / PAGE_SIZE ≤ page_num →
      ∃ p', p.get_page page_num = .ok (List.replicate PAGE_SIZE 0, p')) := by
  refine ⟨⟨?_, ?_⟩, ?_, ?_⟩
  · intro h
    by_contra hc
    exact get_page_ne_oob p page_num (not_le.mp hc) h
  · intro h
    unfold Pager.get_page
    rw [if_pos h]
  · intro hb hs hf hr
    exact ⟨_, get_page_miss_file p page_num hb hs hf hr⟩
  · intro hb hs hf
    exact ⟨_, get_page_miss_fresh p page_num hb hs hf⟩

theorem read_page_length (file : List Nat) (hmod : file.length % PAGE_SIZE = 0)
    (j : Nat) (hj : j < file.length / PAGE_SIZE) :
    ((file.drop (j * PAGE_SIZE)).take PAGE_SIZE).length = PAGE_SIZE := by
  have hmul : file.length / PAGE_SIZE * PAGE_SIZE = file.length :=
    Nat.div_mul_cancel (Nat.dvd_of_mod_eq_zero hmod)
  have hle : (j + 1) * PAGE_SIZE ≤ file.length := by
    calc (j + 1) * PAGE_SIZE ≤ file.length / PAGE_SIZE * PAGE_SIZE :=
          Nat.mul_le_mul_right _ hj
      _ = file.length := hmul
  rw [List.length_take, List.length_drop]
  rw [Nat.succ_mul] at hle
  omega

theorem load_pages_bound (l : List Nat) :
    ∀ (p p' : Pager), Pager.load_pages p l = .ok p' →
      ∀ x ∈ l, x < TABLE_MAX_PAGES := by
  induction l with
  | nil => intro p p' _ x hx; cases hx
  | cons n ns ih =>
    intro p p' h x hx
    unfold Pager.load_pages at h
    cases hg : p.get_page n with
    | error e => rw [hg] at h; cases h
    | ok pr =>
      obtain ⟨pg, p₁⟩ := pr
      rw [hg] at h
      rcases List.mem_cons.mp hx with rfl | hx'
      · by_contra hc
        unfold Pager.get_page at hg
        rw [if_pos (not_lt.mp hc)] at hg
        cases hg
      · exact ih p₁ p' h x hx'

theorem load_pages_warm (file : List Nat) (hmod : file.length % PAGE_SIZE = 0)
    (hcap : file.length / PAGE_SIZE ≤ TABLE_MAX_PAGES) :
    ∀ (cnt i : Nat) (p : Pager), i + cnt = file.length / PAGE_SIZE →
      p.file = file → p.file_length = file.length →
      p.num_pages = file.length / PAGE_SIZE →
      p.pages.length = TABLE_MAX_PAGES →
      (∀ j, j < i → p.pages.getD j none
        = some ((file.drop (j * PAGE_SIZE)).take PAGE_SIZE)) →
      (∀ j, i ≤ j → p.pages.getD j none = none) →
      ∃ p', Pager.load_pages p (List.range' i cnt) = .ok p' ∧
        p'.file = file ∧ p'.file_length = file.length ∧
        p'.num_pages = file.length / PAGE_SIZE ∧
        p'.pages.length = TABLE_MAX_PAGES ∧
        (∀ j, j < file.length / PAGE_SIZE → p'.pages.getD j none
          = some ((file.drop (j * PAGE_SIZE)).take PAGE_SIZE)) ∧
        (∀ j, file.length / PAGE_SIZE ≤ j → p'.pages.getD j none = none) := by
  intro cnt
  induction cnt with
  | zero =>
    intro i p hin hf hfl hnp hpl hfill hnone
    refine ⟨p, rfl, hf, hfl, hnp, hpl, ?_, ?_⟩
    · intro j hj
      exact hfill j (by omega)
    · intro j hj
      exact hnone j (by omega)
  | succ cnt ih =>
    intro i p hin hf hfl hnp hpl hfill hnone
    have hi : i < file.length / PAGE_SIZE := by omega
    have hib : i < TABLE_MAX_PAGES := lt_of_lt_of_le hi hcap
    have hs : p.pages.getD i none = none := hnone i le_rfl
    have hfi : i < p.file_length / PAGE_SIZE := by rw [hfl]; exact hi
    have hr : ((p.file.drop (i * PAGE_SIZE)).take PAGE_SIZE).length = PAGE_SIZE := by
      rw [hf]; exact read_page_length file hmod i hi
    have hget := get_page_miss_file p i hib hs hfi hr
    rw [List.range'_succ]
    unfold Pager.load_pages
    rw [hget]
    have hmono : ¬ p.num_pages ≤ i := by rw [hnp]; omega
    obtain ⟨p', hload, hrest⟩ := ih (i + 1)
      { p with pages := p.pages.set i (some ((p.file.drop (i * PAGE_SIZE)).take PAGE_SIZE))
               num_pages := if p.num_pages ≤ i then p.num_pages + 1 else p.num_pages }
      (by omega) hf hfl (by simp only [if_neg hmono]; exact hnp)
      (by simp only [List.length_set]; exact hpl)
      (by
        intro j hj
        rcases Nat.lt_or_ge j i with hji | hji
        · rw [List.getD_eq_getElem?_getD, List.getElem?_set_ne (by omega),
            ← List.getD_eq_getElem?_getD]
          exact hfill j hji
        · have hje : j = i := by omega
          subst hje
          rw [List.getD_eq_getElem?_getD,
            List.getElem?_set_self (by rw [hpl]; exact hib)]
          rw [hf]
          rfl)
      (by
        intro j hj
        rw [List.getD_eq_getElem?_getD, List.getElem?_set_ne (by omega),
          ← List.getD_eq_getElem?_getD]
        exact hnone j (by omega))
    refine ⟨p', ?_, hrest⟩
    simp only [Pager.cache_page]
    exact hload

theorem open_file_inv (file : List Nat) (p : Pager) (h : Pager.open_file file = .ok p) :
    PagerInv p ∧ p.file = file ∧ p.num_pages = file.length / PAGE_SIZE ∧
      (∀ j, j < file.length / PAGE_SIZE → p.pages.getD j none
        = some ((file.drop (j * PAGE_SIZE)).take PAGE_SIZE)) := by
  by_cases hmod : file.length % PAGE_SIZE = 0
  case neg =>
    unfold Pager.open_file at h
    rw [if_pos hmod] at h
    cases h
  unfold Pager.open_file at h
  rw [if_neg (not_not_intro hmod), List.range_eq_range'] at h
  have hcap : file.length / PAGE_SIZE ≤ TABLE_MAX_PAGES := by
    rcases Nat.eq_zero_or_pos (file.length / PAGE_SIZE) with h0 | hpos
    · omega
    · have := load_pages_bound (List.range' 0 (file.length / PAGE_SIZE)) _ _ h
        (file.length / PAGE_SIZE - 1)
        (by
          rw [List.mem_range'_1]
          omega)
      omega
  obtain ⟨p', hload, hf, hfl, hnp, hpl, hfill, hnone⟩ :=
    load_pages_warm file hmod hcap (file.length / PAGE_SIZE) 0
      { pages := List.replicate TABLE_MAX_PAGES none
        file_length := file.length
        file := file
        num_pages := file.length / PAGE_SIZE }
      (by omega) rfl rfl rfl (by simp)
      (by intro j hj; omega)
      (by
        intro j _
        rw [List.getD_eq_getElem?_getD, List.getElem?_replicate]
        split <;> rfl)
  rw [hload] at h
  cases h
  refine ⟨⟨hpl, ?_, ?_, ?_, ?_, ?_, ?_⟩, hf, hnp, hfill⟩
  · intro j hj
    rw [hnp] at hj
    exact ⟨_, hfill j hj, read_page_length file hmod j hj⟩
  · intro j hj
    rw [hnp] at hj
    exact hnone j hj
  · rw [hfl]; exact hmod
  · rw [hf, hfl]
  · rw [hfl, hnp]
  · rw [hnp]; exact hcap

theorem get_page_step_inv (p : Pager) (page_num : Nat) (page : Page) (p' : Pager)
    (hInv : PagerInv p) (hd : page_num ≤ p.num_pages)
    (h : p.get_page page_num = .ok (page, p')) :
    PagerInv p' ∧ p'.file = p.file ∧ p'.file_length = p.file_length ∧
      p'.num_pages = (if page_num = p.num_pages then p.num_pages + 1
                      else p.num_pages) ∧
      (∀ j, j ≠ page_num → p'.pages.getD j none = p.pages.getD j none) ∧
      (∃ pg, p'.pages.getD page_num none = some pg) := by
  obtain ⟨hlen, hfill, hnone, hmod, hflen, hfpages, hcap⟩ := hInv
  rcases Nat.lt_or_ge page_num p.num_pages with hlt | hge
  · obtain ⟨pg, hpg, hpglen⟩ := hfill page_num hlt
    rw [get_page_hit p page_num pg (lt_of_lt_of_le hlt hcap) hpg] at h
    injection h with h1
    injection h1 with hpage hstate
    subst hpage hstate
    refine ⟨⟨hlen, hfill, hnone, hmod, hflen, hfpages, hcap⟩, rfl, rfl, ?_,
      fun j _ => rfl, ⟨pg, hpg⟩⟩
    rw [if_neg (by omega)]
  · have heq : page_num = p.num_pages := le_antisymm hd hge
    have hs : p.pages.getD page_num none = none := hnone page_num hge
    by_cases hb : page_num < TABLE_MAX_PAGES
    case neg =>
      unfold Pager.get_page at h
      rw [if_pos (not_lt.mp hb)] at h
      cases h
    have hfresh : p.file_length / PAGE_SIZE ≤ page_num := heq ▸ hfpages
    rw [get_page_miss_fresh p page_num hb hs hfresh] at h
    rw [Pager.cache_page] at h
    injection h with h1
    injection h1 with hpage hstate
    subst hpage hstate
    have hmono : p.num_pages ≤ page_num := hge
    refine ⟨⟨?_, ?_, ?_, hmod, hflen, ?_, ?_⟩, rfl, rfl, ?_, ?_, ?_⟩
    · simpa [List.length_set] using hlen
    · intro j hj
      simp only [if_pos hmono] at hj
      rcases Nat.lt_or_ge j p.num_pages with hjlt | hjge
      · obtain ⟨pg, hpg, hpglen⟩ := hfill j hjlt
        refine ⟨pg, ?_, hpglen⟩
        rw [List.getD_eq_getElem?_getD, List.getElem?_set_ne (by omega),
          ← List.getD_eq_getElem?_getD]
        exact hpg
      · have : j = page_num := by omega
        subst this
        refine ⟨List.replicate PAGE_SIZE 0, ?_, by simp⟩
        rw [List.getD_eq_getElem?_getD,
          List.getElem?_set_self (by rw [hlen]; exact hb)]
        rfl
    · intro j hj
      simp only [if_pos hmono] at hj
      rw [List.getD_eq_getElem?_getD, List.getElem?_set_ne (by omega),
        ← List.getD_eq_getElem?_getD]
      exact hnone j (by omega)
    · simp only [if_pos hmono]
      omega
    · simp only [if_pos hmono]
      omega
    · simp only [if_pos hmono, if_pos heq]
    · intro j hj
      rw [List.getD_eq_getElem?_getD, List.getElem?_set_ne (by omega),
        ← List.getD_eq_getElem?_getD]
    · refine ⟨List.replicate PAGE_SIZE 0, ?_⟩
      rw [List.getD_eq_getElem?_getD,
        List.getElem?_set_self (by rw [hlen]; exact hb)]
      rfl

theorem DReach.inv {p : Pager} (h : DReach p) : PagerInv p := by
  induction h with
  | openFile file p hopen => exact (open_file_inv file p hopen).1
  | step p page_num page p' _ hd hok ih =>
    exact (get_page_step_inv p page_num page p' ih hd hok).1
  | modify p page_num old new _ hslot hlenp ih =>
    obtain ⟨hlen, hfill, hnone, hmod, hflen, hfpages, hcap⟩ := ih
    have hpn : page_num < p.num_pages := by
      by_contra hc
      rw [hnone page_num (not_lt.mp hc)] at hslot
      cases hslot
    refine ⟨by simpa [List.length_set] using hlen, ?_, ?_, hmod, hflen, hfpages, hcap⟩
    · intro j hj
      rcases eq_or_ne j page_num with rfl | hne
      · obtain ⟨pg, hpg, hpglen⟩ := hfill j hj
        rw [hpg] at hslot
        injection hslot with hslot
        refine ⟨new, ?_, by rw [hlenp, ← hslot]; exact hpglen⟩
        rw [List.getD_eq_getElem?_getD,
          List.getElem?_set_self (by rw [hlen]; omega)]
        rfl
      · obtain ⟨pg, hpg, hpglen⟩ := hfill j hj
        refine ⟨pg, ?_, hpglen⟩
        rw [List.getD_eq_getElem?_getD, List.getElem?_set_ne (by omega),
          ← List.getD_eq_getElem?_getD]
        exact hpg
    · intro j hj
      have hj' : p.num_pages ≤ j := hj
      rw [List.getD_eq_getElem?_getD, List.getElem?_set_ne (by omega),
        ← List.getD_eq_getElem?_getD]
      exact hnone j hj'

/-- C7 (counterexample): the claim fails as stated — from an empty file,
the single (in-bounds) call `get_page 1` caches slot 1 but advances
`num_pages` only to 1, reaching a pager state in which
`get_unused_page_num` returns 1 even though slot 1 is already occupied;
the next allocation would hand out a page number in use. -/
theorem C7_counterexample :
    Reachable pagerAfterGetPageOne ∧
      pagerAfterGetPageOne.get_unused_page_num = 1 ∧
      pagerAfterGetPageOne.pages.getD pagerAfterGetPageOne.get_unused_page_num none
        ≠ none := by
  refine ⟨Reachable.step pagerEmpty 1 (List.replicate PAGE_SIZE 0) pagerAfterGetPageOne
    (Reachable.openFile [] pagerEmpty rfl) rfl, rfl, ?_⟩
  decide

/-- C7 (amended): provided every `get_page` call requests a page number at
most the current `num_pages` — which is how the engine drives the pager:
existing pages are below `num_pages` and fresh pages come from
`get_unused_page_num` — in every reachable pager state
`get_unused_page_num` returns the current total page count, that page
number's slot is unallocated, and a successful `get_page` extends the
count (by one) exactly when it is called with the fresh page number
`num_pages`, so the next allocation is again unused. -/
theorem C7_alloc_unused (p : Pager) (h : DReach p) :
    p.get_unused_page_num = p.num_pages ∧
    p.pages.getD p.get_unused_page_num none = none ∧
    (∀ page_num page p', page_num ≤ p.num_pages →
      p.get_page page_num = .ok (page, p') →
      p'.num_pages = (if page_num = p.num_pages then p.num_pages + 1
                      else p.num_pages)) := by
  have hInv := h.inv
  refine ⟨rfl, hInv.2.2.1 p.num_pages le_rfl, ?_⟩
  intro page_num page p' hd hok
  exact (get_page_step_inv p page_num page p' hInv hd hok).2.2.2.1

/-- C7 (witness): the amended statement at the reachable state obtained by
opening an empty file. -/
theorem C7_alloc_unused_witness :
    pagerEmpty.get_unused_page_num = pagerEmpty.num_pages ∧
    pagerEmpty.pages.getD pagerEmpty.get_unused_page_num none = none ∧
    (∀ page_num page p', page_num ≤ pagerEmpty.num_pages →
      pagerEmpty.get_page page_num = .ok (page, p') →
      p'.num_pages = (if page_num = pagerEmpty.num_pages then pagerEmpty.num_pages + 1
                      else pagerEmpty.num_pages)) :=
  C7_alloc_unused pagerEmpty (DReach.openFile [] pagerEmpty rfl)

theorem writeAt_eq (f : List Nat) (off : Nat) (data : List Nat) (h : off ≤ f.length) :
    writeAt f off data = f.take off ++ data ++ f.drop (off + data.length) := by
  unfold writeAt
  rw [Nat.sub_eq_zero_of_le h, List.replicate_zero, List.append_nil]

theorem close_loop_frame (l : List Nat) :
    ∀ p : Pager, (Pager.close_loop p l).pages = p.pages ∧
      (Pager.close_loop p l).num_pages = p.num_pages ∧
      (Pager.close_loop p l).file_length = p.file_length := by
  induction l with
  | nil => intro p; exact ⟨rfl, rfl, rfl⟩
  | cons n ns ih =>
    intro p
    unfold Pager.close_loop
    cases hs : p.pages.getD n none with
    | none => exact ih p
    | some page => exact ih _

theorem close_loop_file_spec :
    ∀ (cnt i : Nat) (p : Pager),
      (∀ j, i ≤ j → j < i + cnt →
        ∃ page, p.pages.getD j none = some page ∧ page.length = PAGE_SIZE) →
      i * PAGE_SIZE ≤ p.file.length →
      (Pager.close_loop p (List.range' i cnt)).file
        = p.file.take (i * PAGE_SIZE) ++ catPagesFrom p.pages i cnt
          ++ p.file.drop ((i + cnt) * PAGE_SIZE) := by
  intro cnt
  induction cnt with
  | zero =>
    intro i p _ _
    show p.file = _
    simp [catPagesFrom, List.take_append_drop]
  | succ cnt ih =>
    intro i p hfill hlen
    obtain ⟨pg, hpg, hpglen⟩ := hfill i le_rfl (by omega)
    have htake : (p.file.take (i * PAGE_SIZE)).length = i * PAGE_SIZE := by
      rw [List.length_take]
      omega
    have hXlen : (p.file.take (i * PAGE_SIZE) ++ pg).length = (i + 1) * PAGE_SIZE := by
      rw [List.length_append, htake, hpglen, Nat.succ_mul]
    have hwa := writeAt_eq p.file (i * PAGE_SIZE) pg hlen
    have hql : (i + 1) * PAGE_SIZE ≤ (writeAt p.file (i * PAGE_SIZE) pg).length := by
      rw [hwa, List.length_append, List.length_append, htake, hpglen, Nat.succ_mul]
      omega
    have htakeq : (writeAt p.file (i * PAGE_SIZE) pg).take ((i + 1) * PAGE_SIZE)
        = p.file.take (i * PAGE_SIZE) ++ pg := by
      rw [hwa, List.take_append_eq_append_take,
        List.take_of_length_le (le_of_eq hXlen), hXlen, Nat.sub_self,
        List.take_zero, List.append_nil]
    have hdropq : (writeAt p.file (i * PAGE_SIZE) pg).drop ((i + 1 + cnt) * PAGE_SIZE)
        = p.file.drop ((i + (cnt + 1)) * PAGE_SIZE) := by
      have hle : (i + 1) * PAGE_SIZE ≤ (i + 1 + cnt) * PAGE_SIZE :=
        Nat.mul_le_mul_right _ (by omega)
      rw [hwa, List.drop_append_eq_append_drop,
        List.drop_eq_nil_of_le (le_of_eq_of_le hXlen hle), List.nil_append, hXlen,
        hpglen, ← Nat.succ_mul, List.drop_drop, Nat.add_sub_cancel' hle]
      have : i + 1 + cnt = i + (cnt + 1) := by omega
      rw [this]
    rw [List.range'_succ]
    unfold Pager.close_loop
    rw [hpg]
    rw [ih (i + 1) { p with file := writeAt p.file (i * PAGE_SIZE) pg }
      (fun j hj1 hj2 => hfill j (by omega) (by omega)) hql]
    dsimp only
    rw [htakeq, hdropq, catPagesFrom, hpg, Option.getD_some]
    simp [List.append_assoc]

theorem catPagesFrom_length (pages : List (Option Page)) :
    ∀ (cnt i : Nat),
      (∀ j, i ≤ j → j < i + cnt →
        ∃ page, pages.getD j none = some page ∧ page.length = PAGE_SIZE) →
      (catPagesFrom pages i cnt).length = cnt * PAGE_SIZE := by
  intro cnt
  induction cnt with
  | zero =>
    intro i _
    simp [catPagesFrom]
  | succ cnt ih =>
    intro i hfill
    obtain ⟨pg, hpg, hpglen⟩ := hfill i le_rfl (by omega)
    rw [catPagesFrom, hpg, Option.getD_some, List.length_append, hpglen,
      ih (i + 1) (fun j h1 h2 => hfill j (by omega) (by omega)), Nat.succ_mul]
    omega

theorem catPagesFrom_read (pages : List (Option Page)) :
    ∀ (cnt j i : Nat),
      (∀ k, i ≤ k → k < i + cnt →
        ∃ page, pages.getD k none = some page ∧ page.length = PAGE_SIZE) →
      j < cnt →
      ((catPagesFrom pages i cnt).drop (j * PAGE_SIZE)).take PAGE_SIZE
        = (pages.getD (i + j) none).getD [] := by
  intro cnt
  induction cnt with
  | zero =>
    intro j i _ hj
    exact absurd hj (Nat.not_lt_zero j)
  | succ cnt ih =>
    intro j i hfill hj
    obtain ⟨pg, hpg, hpglen⟩ := hfill i le_rfl (by omega)
    rw [catPagesFrom, hpg, Option.getD_some]
    cases j with
    | zero =>
      simp only [Nat.zero_mul, List.drop_zero, Nat.add_zero]
      rw [List.take_append_eq_append_take, List.take_of_length_le (le_of_eq hpglen),
        hpglen, Nat.sub_self, List.take_zero, List.append_nil, hpg, Option.getD_some]
    | succ j =>
      rw [List.drop_append_eq_append_drop,
        List.drop_eq_nil_of_le (by rw [hpglen, Nat.succ_mul]; omega),
        List.nil_append, hpglen]
      have hsub : (j + 1) * PAGE_SIZE - PAGE_SIZE = j * PAGE_SIZE := by
        rw [Nat.succ_mul]
        omega
      rw [hsub, ih j (i + 1) (fun k h1 h2 => hfill k (by omega) (by omega)) (by omega)]
      have : i + 1 + j = i + (j + 1) := by omega
      rw [this]

theorem close_file_eq (p : Pager) (hInv : PagerInv p) :
    (Pager.close p).file = catPagesFrom p.pages 0 p.num_pages ∧
    (Pager.close p).pages = p.pages ∧
    (Pager.close p).num_pages = p.num_pages := by
  obtain ⟨hlen, hfill, hnone, hmod, hflen, hfpages, hcap⟩ := hInv
  have hfill' : ∀ j, 0 ≤ j → j < 0 + p.num_pages →
      ∃ page, p.pages.getD j none = some page ∧ page.length = PAGE_SIZE := by
    intro j _ hj
    exact hfill j (by omega)
  have hfl_le : p.file.length ≤ p.num_pages * PAGE_SIZE := by
    have hdm : p.file_length / PAGE_SIZE * PAGE_SIZE = p.file_length :=
      Nat.div_mul_cancel (Nat.dvd_of_mod_eq_zero hmod)
    have := Nat.mul_le_mul_right PAGE_SIZE hfpages
    omega
  unfold Pager.close
  rw [List.range_eq_range']
  refine ⟨?_, (close_loop_frame _ p).1, (close_loop_frame _ p).2.1⟩
  rw [close_loop_file_spec p.num_pages 0 p hfill' (by simp)]
  simp only [Nat.zero_mul, List.take_zero, List.nil_append, Nat.zero_add]
  rw [List.drop_eq_nil_of_le hfl_le, List.append_nil]

theorem getElem?_eq_some_getD (l : List (Option Page)) (n : Nat) (hn : n < l.length) :
    l[n]? = some (l.getD n none) := by
  rw [List.getD_eq_getElem?_getD, List.getElem?_eq_getElem hn]
  rfl

/-- C9: for every pager state the engine can reach (open, disciplined page
fetches, in-place page mutations by the tree — covering every sequence of
successful inserts), closing the table (flushing all cached pages to their
file offsets) and reopening the produced file succeeds and restores exactly
the same page cache and page count; since a cursor scan reads only through
the cached pages, the scan after reopening is identical to the scan
immediately before the close. -/
theorem C9_close_reopen (p : Pager) (h : DReach p) :
    ∃ p', Pager.open_file (Pager.close p).file = .ok p' ∧
      p'.pages = p.pages ∧ p'.num_pages = p.num_pages := by
  have hInv := h.inv
  obtain ⟨hlen, hfill, hnone, hmod, hflen, hfpages, hcap⟩ := hInv
  have hfill' : ∀ j, 0 ≤ j → j < 0 + p.num_pages →
      ∃ page, p.pages.getD j none = some page ∧ page.length = PAGE_SIZE := by
    intro j _ hj
    exact hfill j (by omega)
  obtain ⟨hclose, -, -⟩ := close_file_eq p h.inv
  rw [hclose]
  have hF : (catPagesFrom p.pages 0 p.num_pages).length = p.num_pages * PAGE_SIZE :=
    catPagesFrom_length p.pages p.num_pages 0 hfill'
  have hmodF : (catPagesFrom p.pages 0 p.num_pages).length % PAGE_SIZE = 0 := by
    rw [hF]
    exact Nat.mul_mod_left _ _
  have hdiv : (catPagesFrom p.pages 0 p.num_pages).length / PAGE_SIZE = p.num_pages := by
    rw [hF]
    exact Nat.mul_div_cancel _ (by norm_num [PAGE_SIZE])
  unfold Pager.open_file
  rw [if_neg (not_not_intro hmodF), List.range_eq_range', hdiv]
  obtain ⟨p', hload, hf, hfl, hnp, hpl, hfillF, hnoneF⟩ :=
    load_pages_warm (catPagesFrom p.pages 0 p.num_pages) hmodF
      (by rw [hdiv]; exact hcap) p.num_pages 0
      { pages := List.replicate TABLE_MAX_PAGES none
        file_length := (catPagesFrom p.pages 0 p.num_pages).length
        file := catPagesFrom p.pages 0 p.num_pages
        num_pages := (catPagesFrom p.pages 0 p.num_pages).length / PAGE_SIZE }
      (by rw [hdiv]; omega) rfl rfl rfl (by simp)
      (by intro j hj; omega)
      (by
        intro j _
        rw [List.getD_eq_getElem?_getD, List.getElem?_replicate]
        split <;> rfl)
  rw [hdiv] at hload
  refine ⟨p', hload, ?_, by rw [hnp, hdiv]⟩
  have hnp' : p'.num_pages = p.num_pages := by rw [hnp, hdiv]
  apply List.ext_getElem?
  intro n
  rcases Nat.lt_or_ge n TABLE_MAX_PAGES with hn | hn
  · rw [getElem?_eq_some_getD p'.pages n (by rw [hpl]; exact hn),
      getElem?_eq_some_getD p.pages n (by rw [hlen]; exact hn)]
    rcases Nat.lt_or_ge n p.num_pages with hnp2 | hnp2
    · obtain ⟨pg, hpg, hpglen⟩ := hfill n hnp2
      rw [hfillF n (by rw [hdiv]; exact hnp2), hpg]
      rw [catPagesFrom_read p.pages p.num_pages n 0 hfill' hnp2]
      rw [Nat.zero_add, hpg, Option.getD_some]
    · rw [hnoneF n (by rw [hdiv]; exact hnp2), hnone n hnp2]
  · rw [List.getElem?_eq_none (by rw [hpl]; exact hn),
      List.getElem?_eq_none (by rw [hlen]; exact hn)]

/-- C9 (witness): the reopen theorem at the reachable state obtained by
opening an empty file. -/
theorem C9_close_reopen_witness :
    ∃ p', Pager.open_file (Pager.close pagerEmpty).file = .ok p' ∧
      p'.pages = pagerEmpty.pages ∧ p'.num_pages = pagerEmpty.num_pages :=
  C9_close_reopen pagerEmpty (DReach.openFile [] pagerEmpty rfl)

/-- C6 (witness): over a one-page file with a cold cache, page 100 is out
of bounds, page 0 is served from the file block at offset 0, and page 1 is
served as a zero-filled page. -/
theorem C6_get_page_witness :
    pagerOneFilePage.get_page TABLE_MAX_PAGES = .error .outOfBounds ∧
    (∃ p', pagerOneFilePage.get_page 0
      = .ok ((pagerOneFilePage.file.drop (0 * PAGE_SIZE)).take PAGE_SIZE, p')) ∧
    (∃ p', pagerOneFilePage.get_page 1 = .ok (List.replicate PAGE_SIZE 0, p')) :=
  ⟨(C6_get_page pagerOneFilePage TABLE_MAX_PAGES).1.mpr le_rfl,
   (C6_get_page pagerOneFilePage 0).2.1 (by decide) (by decide) (by decide)
     (by simp [pagerOneFilePage, List.take_replicate]),
   (C6_get_page pagerOneFilePage 1).2.2 (by decide) (by decide) (by decide)⟩

/-! ## Theorems: B-tree list-level lemmas -/

theorem cellKeys_append (A B : List (Int × Payload)) :
    cellKeys (A ++ B) = cellKeys A ++ cellKeys B :=
  List.map_append _ A B

theorem lastKey_cons_of_ne_nil (x : Int × Payload) (A : List (Int × Payload))
    (h : A ≠ []) : lastKey (x :: A) = lastKey A := by
  unfold lastKey
  cases A with
  | nil => exact absurd rfl h
  | cons y A' => rw [List.getLast?_cons_cons]

theorem lastKey_append (A B : List (Int × Payload)) (h : B ≠ []) :
    lastKey (A ++ B) = lastKey B := by
  unfold lastKey
  rw [List.getLast?_append]
  cases hB : B.getLast? with
  | none =>
    cases B with
    | nil => exact absurd rfl h
    | cons y B' => rw [List.getLast?_eq_head?_reverse] at hB; simp at hB
  | some x => rfl

theorem lastKey_mem (A : List (Int × Payload)) (h : A ≠ []) :
    lastKey A ∈ cellKeys A := by
  induction A with
  | nil => exact absurd rfl h
  | cons x A' ih =>
    cases A' with
    | nil =>
      unfold lastKey cellKeys
      simp
    | cons y A'' =>
      rw [lastKey_cons_of_ne_nil x (y :: A'') (by simp)]
      exact List.mem_cons_of_mem _ (ih (by simp))

theorem sorted_le_lastKey (A : List (Int × Payload))
    (hS : List.Pairwise (· < ·) (cellKeys A)) :
    ∀ x ∈ cellKeys A, x ≤ lastKey A := by
  induction A with
  | nil => intro x hx; cases hx
  | cons hd A' ih =>
    intro x hx
    rw [show cellKeys (hd :: A') = hd.1 :: cellKeys A' from rfl,
      List.pairwise_cons] at hS
    rcases List.mem_cons.mp hx with rfl | hx'
    · cases hA : A' with
      | nil =>
        subst hA
        unfold lastKey
        simp
      | cons y A'' =>
        subst hA
        rw [lastKey_cons_of_ne_nil hd _ (by simp)]
        have hmem := lastKey_mem (y :: A'') (by simp)
        exact le_of_lt (hS.1 _ hmem)
    · cases hA : A' with
      | nil => subst hA; cases hx'
      | cons y A'' =>
        subst hA
        rw [lastKey_cons_of_ne_nil hd _ (by simp)]
        exact ih hS.2 x hx'

theorem insertCells_nil (k : Int) (v : Payload) :
    insertCells k v [] = some [(k, v)] := rfl

theorem insertCells_ne_nil (k : Int) (v : Payload) :
    ∀ A A', insertCells k v A = some A' → A' ≠ [] := by
  intro A
  induction A with
  | nil =>
    intro A' h
    rw [insertCells_nil] at h
    injection h with h
    subst h
    simp
  | cons hd tl ih =>
    intro A' h
    obtain ⟨k', v'⟩ := hd
    unfold insertCells at h
    split_ifs at h with h1 h2
    · injection h with h
      subst h
      simp
    · cases hrec : insertCells k v tl with
      | none => rw [hrec] at h; cases h
      | some tl' =>
        rw [hrec] at h
        injection h with h
        subst h
        simp

theorem insertCells_length (k : Int) (v : Payload) :
    ∀ A A', insertCells k v A = some A' → A'.length = A.length + 1 := by
  intro A
  induction A with
  | nil =>
    intro A' h
    rw [insertCells_nil] at h
    injection h with h
    subst h
    rfl
  | cons hd tl ih =>
    intro A' h
    obtain ⟨k', v'⟩ := hd
    unfold insertCells at h
    split_ifs at h with h1 h2
    · injection h with h
      subst h
      simp
    · cases hrec : insertCells k v tl with
      | none => rw [hrec] at h; cases h
      | some tl' =>
        rw [hrec] at h
        injection h with h
        subst h
        simp [ih tl' hrec]

theorem insertCells_mem (k : Int) (v : Payload) :
    ∀ A A', insertCells k v A = some A' →
      ∀ x ∈ cellKeys A', x = k ∨ x ∈ cellKeys A := by
  intro A
  induction A with
  | nil =>
    intro A' h x hx
    rw [insertCells_nil] at h
    injection h with h
    subst h
    simp [cellKeys] at hx
    exact Or.inl hx
  | cons hd tl ih =>
    intro A' h x hx
    obtain ⟨k', v'⟩ := hd
    unfold insertCells at h
    split_ifs at h with h1 h2
    · injection h with h
      subst h
      rcases List.mem_cons.mp hx with rfl | hx'
      · exact Or.inl rfl
      · exact Or.inr hx'
    · cases hrec : insertCells k v tl with
      | none => rw [hrec] at h; cases h
      | some tl' =>
        rw [hrec] at h
        injection h with h
        subst h
        rcases List.mem_cons.mp hx with rfl | hx'
        · exact Or.inr (List.mem_cons_self _ _)
        · rcases ih tl' hrec x hx' with hk | hmem
          · exact Or.inl hk
          · exact Or.inr (List.mem_cons_of_mem _ hmem)

theorem insertCells_sorted (k : Int) (v : Payload) :
    ∀ A A', List.Pairwise (· < ·) (cellKeys A) → insertCells k v A = some A' →
      List.Pairwise (· < ·) (cellKeys A') := by
  intro A
  induction A with
  | nil =>
    intro A' _ h
    rw [insertCells_nil] at h
    injection h with h
    subst h
    simp [cellKeys]
  | cons hd tl ih =>
    intro A' hS h
    obtain ⟨k', v'⟩ := hd
    rw [show cellKeys ((k', v') :: tl) = k' :: cellKeys tl from rfl,
      List.pairwise_cons] at hS
    unfold insertCells at h
    split_ifs at h with h1 h2
    · injection h with h
      subst h
      rw [show cellKeys ((k, v) :: (k', v') :: tl) = k :: k' :: cellKeys tl from rfl,
        List.pairwise_cons]
      refine ⟨?_, List.pairwise_cons.mpr hS⟩
      intro a ha
      rcases List.mem_cons.mp ha with rfl | ha'
      · exact h1
      · exact lt_trans h1 (hS.1 a ha')
    · cases hrec : insertCells k v tl with
      | none => rw [hrec] at h; cases h
      | some tl' =>
        rw [hrec] at h
        injection h with h
        subst h
        rw [show cellKeys ((k', v') :: tl') = k' :: cellKeys tl' from rfl,
          List.pairwise_cons]
        refine ⟨?_, ih tl' hS.2 hrec⟩
        intro a ha
        rcases insertCells_mem k v tl tl' hrec a ha with rfl | hmem
        · omega
        · exact hS.1 a hmem

theorem insertCells_none_of_mem (k : Int) (v : Payload) :
    ∀ A, List.Pairwise (· < ·) (cellKeys A) → k ∈ cellKeys A →
      insertCells k v A = none := by
  intro A
  induction A with
  | nil => intro _ hmem; cases hmem
  | cons hd tl ih =>
    intro hS hmem
    obtain ⟨k', v'⟩ := hd
    rw [show cellKeys ((k', v') :: tl) = k' :: cellKeys tl from rfl,
      List.pairwise_cons] at hS
    unfold insertCells
    rcases List.mem_cons.mp hmem with rfl | hmem'
    · rw [if_neg (by omega), if_pos rfl]
    · have hk : k' < k := hS.1 k hmem'
      rw [if_neg (by omega), if_neg (by omega), ih hS.2 hmem']
      rfl

theorem insertCells_lastKey (k : Int) (v : Payload) :
    ∀ A A', A ≠ [] → List.Pairwise (· < ·) (cellKeys A) →
      insertCells k v A = some A' → lastKey A' = max k (lastKey A) := by
  intro A
  induction A with
  | nil => intro A' h; exact absurd rfl h
  | cons hd tl ih =>
    intro A' _ hS h
    obtain ⟨k', v'⟩ := hd
    rw [show cellKeys ((k', v') :: tl) = k' :: cellKeys tl from rfl,
      List.pairwise_cons] at hS
    unfold insertCells at h
    split_ifs at h with h1 h2
    · injection h with h
      subst h
      rw [lastKey_cons_of_ne_nil _ _ (by simp)]
      have hle : k ≤ lastKey ((k', v') :: tl) := by
        have := sorted_le_lastKey ((k', v') :: tl)
          (List.pairwise_cons.mpr hS) k'
          (List.mem_cons_self _ _)
        omega
      omega
    · cases hrec : insertCells k v tl with
      | none => rw [hrec] at h; cases h
      | some tl' =>
        rw [hrec] at h
        injection h with h
        subst h
        have htl' : tl' ≠ [] := insertCells_ne_nil k v tl tl' hrec
        rw [lastKey_cons_of_ne_nil _ _ htl']
        cases htl : tl with
        | nil =>
          subst htl
          rw [insertCells_nil] at hrec
          injection hrec with hrec
          subst hrec
          unfold lastKey
          simp
          omega
        | cons y tl0 =>
          subst htl
          rw [ih tl' (by simp) hS.2 hrec,
            lastKey_cons_of_ne_nil (k', v') (y :: tl0) (by simp)]

theorem insertCells_cons (k : Int) (v : Payload) (k' : Int) (v' : Payload)
    (rest : List (Int × Payload)) :
    insertCells k v ((k', v') :: rest)
      = if k < k' then some ((k, v) :: (k', v') :: rest)
        else if k = k' then none
        else (insertCells k v rest).map (fun cs => (k', v') :: cs) := rfl

theorem insertCells_append_left (k : Int) (v : Payload) :
    ∀ A B, A ≠ [] → k ≤ lastKey A →
      insertCells k v (A ++ B) = (insertCells k v A).map (· ++ B) := by
  intro A
  induction A with
  | nil => intro B h; exact absurd rfl h
  | cons hd tl ih =>
    intro B _ hk
    obtain ⟨k', v'⟩ := hd
    cases htl : tl with
    | nil =>
      subst htl
      unfold lastKey at hk
      simp at hk
      show insertCells k v ((k', v') :: B) = _
      rw [insertCells_cons, insertCells_cons]
      split_ifs with h1 h2
      · rfl
      · rfl
      · omega
    | cons y tl0 =>
      subst htl
      rw [lastKey_cons_of_ne_nil _ _ (by simp)] at hk
      show insertCells k v ((k', v') :: (y :: tl0 ++ B)) = _
      rw [insertCells_cons k v k' v' (y :: tl0 ++ B),
        insertCells_cons k v k' v' (y :: tl0)]
      split_ifs with h1 h2
      · rfl
      · rfl
      · rw [ih B (by simp) hk]
        cases hrec : insertCells k v (y :: tl0) with
        | none => rfl
        | some tl' => rfl

theorem insertCells_append_right (k : Int) (v : Payload) :
    ∀ A B, (∀ x ∈ cellKeys A, x < k) →
      insertCells k v (A ++ B) = (insertCells k v B).map (A ++ ·) := by
  intro A
  induction A with
  | nil =>
    intro B _
    rw [List.nil_append]
    cases h : insertCells k v B with
    | none => rfl
    | some B' => rfl
  | cons hd tl ih =>
    intro B hlt
    obtain ⟨k', v'⟩ := hd
    have hk' : k' < k := hlt k' (List.mem_cons_self _ _)
    show insertCells k v ((k', v') :: (tl ++ B)) = _
    rw [insertCells_cons, if_neg (by omega), if_neg (by omega),
      ih B (fun x hx => hlt x (List.mem_cons_of_mem _ hx))]
    cases hrec : insertCells k v B with
    | none => rfl
    | some B' => rfl

/-! ## Theorems: B-tree structure lemmas -/

theorem toPairs_ofPairs : ∀ xs : List (BTNode × Int),
    (BTChildren.ofPairs xs).toPairs = xs
  | [] => rfl
  | (c, k) :: xs => by
    rw [BTChildren.ofPairs, BTChildren.toPairs, toPairs_ofPairs xs]

theorem scanAux_eq_pairsCells : ∀ cs : BTChildren,
    cs.scanAux = pairsCells cs.toPairs
  | .nil => rfl
  | .cons c k rest => by
    rw [BTChildren.scanAux, BTChildren.toPairs, pairsCells,
      scanAux_eq_pairsCells rest]

theorem pairsCells_append : ∀ xs ys : List (BTNode × Int),
    pairsCells (xs ++ ys) = pairsCells xs ++ pairsCells ys
  | [], ys => rfl
  | (c, k) :: xs, ys => by
    rw [List.cons_append, pairsCells, pairsCells, pairsCells_append xs ys,
      List.append_assoc]

theorem rebalanceInternal_toCells (M : Nat) (cs : BTChildren) (rc : BTNode) :
    (rebalanceInternal M cs rc).toCells = cs.scanAux ++ rc.toList := by
  unfold rebalanceInternal
  split_ifs with h
  · rfl
  · cases hd : cs.toPairs.drop ((cs.toPairs.length + 2) / 2 - 1) with
    | nil => rfl
    | cons hd' rest =>
      obtain ⟨cj, kj⟩ := hd'
      have hsplit : cs.toPairs
          = cs.toPairs.take ((cs.toPairs.length + 2) / 2 - 1) ++ (cj, kj) :: rest := by
        rw [← hd, List.take_append_drop]
      rw [InsertResult.toCells, BTNode.toList, BTNode.toList,
        scanAux_eq_pairsCells, scanAux_eq_pairsCells, toPairs_ofPairs,
        toPairs_ofPairs, scanAux_eq_pairsCells cs]
      conv_rhs => rw [hsplit]
      rw [pairsCells_append, pairsCells]
      simp [List.append_assoc]

theorem rebalanceInternal_good (M : Nat) (cs : BTChildren) (rc : BTNode)
    (hps : PairsWF cs.toPairs) (hrc : rc.WF) (hrcne : rc.toList ≠ []) :
    (rebalanceInternal M cs rc).Good := by
  unfold rebalanceInternal
  split_ifs with h
  · exact BTNode.WF.internal cs rc hps.1 hps.2 hrc hrcne
  · cases hd : cs.toPairs.drop ((cs.toPairs.length + 2) / 2 - 1) with
    | nil => exact BTNode.WF.internal cs rc hps.1 hps.2 hrc hrcne
    | cons hd' rest =>
      obtain ⟨cj, kj⟩ := hd'
      have hmemj : (cj, kj) ∈ cs.toPairs :=
        List.mem_of_mem_drop (hd ▸ List.mem_cons_self _ _)
      refine ⟨?_, ?_, ?_, ?_, ?_⟩
      · refine BTNode.WF.internal _ cj ?_ ?_ (hps.1 _ hmemj) (hps.2 _ hmemj).1
        · intro p hp
          rw [toPairs_ofPairs] at hp
          exact hps.1 p (List.mem_of_mem_take hp)
        · intro p hp
          rw [toPairs_ofPairs] at hp
          exact hps.2 p (List.mem_of_mem_take hp)
      · refine BTNode.WF.internal _ rc ?_ ?_ hrc hrcne
        · intro p hp
          rw [toPairs_ofPairs] at hp
          exact hps.1 p (List.mem_of_mem_drop (hd ▸ List.mem_cons_of_mem _ hp))
        · intro p hp
          rw [toPairs_ofPairs] at hp
          exact hps.2 p (List.mem_of_mem_drop (hd ▸ List.mem_cons_of_mem _ hp))
      · rw [BTNode.toList]
        intro hc
        exact (hps.2 _ hmemj).1 (List.append_eq_nil.mp hc).2
      · rw [BTNode.toList]
        intro hc
        exact hrcne (List.append_eq_nil.mp hc).2
      · rw [BTNode.toList, lastKey_append _ _ (hps.2 _ hmemj).1]
        exact (hps.2 _ hmemj).2

/-! ## Theorems: B-tree insertion -/

theorem childrenInsert_spec (L M : Nat) (k : Int) (v : Payload) :
    ∀ (cs : BTChildren) (rc : BTNode),
      (∀ p ∈ cs.toPairs,
        p.1.WF ∧ p.1.toList ≠ [] ∧ lastKey p.1.toList = p.2 ∧
        (List.Pairwise (· < ·) (cellKeys p.1.toList) →
          (p.1.insertAux L M k v).map InsertResult.toCells
            = insertCells k v p.1.toList ∧
          (∀ res, p.1.insertAux L M k v = some res → res.Good))) →
      rc.WF → rc.toList ≠ [] →
      (List.Pairwise (· < ·) (cellKeys rc.toList) →
        (rc.insertAux L M k v).map InsertResult.toCells
          = insertCells k v rc.toList ∧
        (∀ res, rc.insertAux L M k v = some res → res.Good)) →
      List.Pairwise (· < ·) (cellKeys (cs.scanAux ++ rc.toList)) →
      ((BTChildren.insertAux L M k v cs rc).map
          (fun pr => pr.1.scanAux ++ pr.2.toList)
        = insertCells k v (cs.scanAux ++ rc.toList)) ∧
      (∀ cs' rc', BTChildren.insertAux L M k v cs rc = some (cs', rc') →
        PairsWF cs'.toPairs ∧ rc'.WF ∧ rc'.toList ≠ [])
  | .nil, rc => by
    intro _ hrcWF hrcne hrcIH hS
    rw [BTChildren.scanAux, List.nil_append] at hS
    obtain ⟨heq, hgood⟩ := hrcIH hS
    rw [BTChildren.scanAux, List.nil_append]
    cases hres : BTNode.insertAux L M k v rc with
    | none =>
      rw [hres] at heq
      refine ⟨?_, ?_⟩
      · rw [BTChildren.insertAux, hres]
        simpa using heq
      · intro cs' rc' h
        rw [BTChildren.insertAux, hres] at h
        simp at h
    | some res =>
      rw [hres] at heq
      cases res with
      | one rc' =>
        simp only [Option.map_some', InsertResult.toCells] at heq
        refine ⟨?_, ?_⟩
        · rw [BTChildren.insertAux, hres]
          simpa [BTChildren.scanAux] using heq
        · intro cs' rc'' h
          rw [BTChildren.insertAux, hres] at h
          simp only [Option.some.injEq, Prod.mk.injEq] at h
          obtain ⟨rfl, rfl⟩ := h
          refine ⟨⟨?_, ?_⟩, hgood _ hres, ?_⟩
          · intro p hp
            rw [BTChildren.toPairs] at hp
            cases hp
          · intro p hp
            rw [BTChildren.toPairs] at hp
            cases hp
          · exact insertCells_ne_nil k v rc.toList _ heq.symm
      | two l sep r =>
        simp only [Option.map_some', InsertResult.toCells] at heq
        obtain ⟨hlWF, hrWF, hlne, hrne, hlsep⟩ := hgood _ hres
        refine ⟨?_, ?_⟩
        · rw [BTChildren.insertAux, hres]
          simpa [BTChildren.scanAux] using heq
        · intro cs' rc'' h
          rw [BTChildren.insertAux, hres] at h
          simp only [Option.some.injEq, Prod.mk.injEq] at h
          obtain ⟨rfl, rfl⟩ := h
          refine ⟨⟨?_, ?_⟩, hrWF, hrne⟩
          · intro p hp
            rw [BTChildren.toPairs, BTChildren.toPairs] at hp
            rcases List.mem_cons.mp hp with rfl | hp'
            · exact hlWF
            · cases hp'
          · intro p hp
            rw [BTChildren.toPairs, BTChildren.toPairs] at hp
            rcases List.mem_cons.mp hp with rfl | hp'
            · exact ⟨hlne, hlsep⟩
            · cases hp'
  | .cons c ck rest, rc => by
    intro hps hrcWF hrcne hrcIH hS
    obtain ⟨hcWF, hcne, hck, hcIH⟩ := hps (c, ck)
      (by rw [BTChildren.toPairs]; exact List.mem_cons_self _ _)
    dsimp only at hcWF hcne hck hcIH
    have hps' := fun p hp => hps p
      (by rw [BTChildren.toPairs]; exact List.mem_cons_of_mem _ hp)
    rw [BTChildren.scanAux, List.append_assoc] at hS
    have hS' := hS
    rw [cellKeys_append, List.pairwise_append] at hS'
    obtain ⟨hSc, hSrest, hcross⟩ := hS'
    rw [BTChildren.scanAux, List.append_assoc]
    rw [BTChildren.insertAux]
    split_ifs with hkck
    · -- k ≤ ck: descend into the covering child c
      obtain ⟨heqc, hgoodc⟩ := hcIH hSc
      have hRHS := insertCells_append_left k v c.toList (rest.scanAux ++ rc.toList)
        hcne (by rw [hck]; exact hkck)
      have hklt : ∀ A', insertCells k v c.toList = some A' → k < ck := by
        intro A' hA'
        rcases lt_or_eq_of_le hkck with h | h
        · exact h
        · exfalso
          have hmem : k ∈ cellKeys c.toList := by
            rw [h, ← hck]
            exact lastKey_mem _ hcne
          rw [insertCells_none_of_mem k v c.toList hSc hmem] at hA'
          cases hA'
      have hlast : ∀ A', insertCells k v c.toList = some A' → lastKey A' = ck := by
        intro A' hA'
        rw [insertCells_lastKey k v c.toList A' hcne hSc hA', hck]
        exact max_eq_right (le_of_lt (hklt A' hA'))
      cases hres : BTNode.insertAux L M k v c with
      | none =>
        rw [hres] at heqc
        simp only [Option.map_none'] at heqc
        refine ⟨?_, ?_⟩
        · rw [hRHS, ← heqc]
          rfl
        · intro cs' rc' h
          simp at h
      | some res =>
        rw [hres] at heqc
        cases res with
        | one c' =>
          simp only [Option.map_some', InsertResult.toCells] at heqc
          refine ⟨?_, ?_⟩
          · rw [hRHS, ← heqc]
            simp [BTChildren.scanAux, List.append_assoc]
          · intro cs' rc' h
            simp at h
            obtain ⟨rfl, rfl⟩ := h
            refine ⟨⟨?_, ?_⟩, hrcWF, hrcne⟩
            · intro p hp
              rw [BTChildren.toPairs] at hp
              rcases List.mem_cons.mp hp with rfl | hp'
              · exact hgoodc _ hres
              · exact (hps' p hp').1
            · intro p hp
              rw [BTChildren.toPairs] at hp
              rcases List.mem_cons.mp hp with rfl | hp'
              · exact ⟨insertCells_ne_nil k v c.toList _ heqc.symm,
                  hlast _ heqc.symm⟩
              · exact ⟨(hps' p hp').2.1, (hps' p hp').2.2.1⟩
        | two l sep r =>
          simp only [Option.map_some', InsertResult.toCells] at heqc
          obtain ⟨hlWF, hrWF, hlne, hrne, hlsep⟩ := hgoodc _ hres
          refine ⟨?_, ?_⟩
          · rw [hRHS, ← heqc]
            simp [BTChildren.scanAux, List.append_assoc]
          · intro cs' rc' h
            simp at h
            obtain ⟨rfl, rfl⟩ := h
            refine ⟨⟨?_, ?_⟩, hrcWF, hrcne⟩
            · intro p hp
              rw [BTChildren.toPairs, BTChildren.toPairs] at hp
              rcases List.mem_cons.mp hp with rfl | hp'
              · exact hlWF
              rcases List.mem_cons.mp hp' with rfl | hp''
              · exact hrWF
              · exact (hps' p hp'').1
            · intro p hp
              rw [BTChildren.toPairs, BTChildren.toPairs] at hp
              rcases List.mem_cons.mp hp with rfl | hp'
              · exact ⟨hlne, hlsep⟩
              rcases List.mem_cons.mp hp' with rfl | hp''
              · refine ⟨hrne, ?_⟩
                have := hlast _ heqc.symm
                rw [lastKey_append _ _ hrne] at this
                exact this
              · exact ⟨(hps' p hp'').2.1, (hps' p hp'').2.2.1⟩
    · -- ck < k: the key belongs to a later child
      have hlt : ∀ x ∈ cellKeys c.toList, x < k := by
        intro x hx
        have := sorted_le_lastKey c.toList hSc x hx
        rw [hck] at this
        omega
      have hRHS := insertCells_append_right k v c.toList
        (rest.scanAux ++ rc.toList) hlt
      obtain ⟨hIHeq, hIHgood⟩ :=
        childrenInsert_spec L M k v rest rc hps' hrcWF hrcne hrcIH hSrest
      cases hres : BTChildren.insertAux L M k v rest rc with
      | none =>
        rw [hres] at hIHeq
        simp only [Option.map_none'] at hIHeq
        refine ⟨?_, ?_⟩
        · rw [hRHS, ← hIHeq]
          rfl
        · intro cs' rc' h
          simp at h
      | some pr =>
        obtain ⟨rest', rc'⟩ := pr
        rw [hres] at hIHeq
        simp only [Option.map_some'] at hIHeq
        refine ⟨?_, ?_⟩
        · rw [hRHS, ← hIHeq]
          simp [BTChildren.scanAux, List.append_assoc]
        · intro cs' rc'' h
          simp at h
          obtain ⟨rfl, rfl⟩ := h
          obtain ⟨hWFrest', hWFrc', hnerc'⟩ := hIHgood rest' rc' hres
          refine ⟨⟨?_, ?_⟩, hWFrc', hnerc'⟩
          · intro p hp
            rw [BTChildren.toPairs] at hp
            rcases List.mem_cons.mp hp with rfl | hp'
            · exact hcWF
            · exact hWFrest'.1 p hp'
          · intro p hp
            rw [BTChildren.toPairs] at hp
            rcases List.mem_cons.mp hp with rfl | hp'
            · exact ⟨hcne, hck⟩
            · exact hWFrest'.2 p hp'

theorem insertAux_spec (L M : Nat) (hL : 1 ≤ L) (k : Int) (v : Payload)
    (t : BTNode) (hWF : t.WF) :
    List.Pairwise (· < ·) (cellKeys t.toList) →
      (t.insertAux L M k v).map InsertResult.toCells = insertCells k v t.toList ∧
      (∀ res, t.insertAux L M k v = some res → res.Good) := by
  induction hWF with
  | leaf cells =>
    intro _
    rw [BTNode.toList, BTNode.insertAux]
    cases hres : insertCells k v cells with
    | none => exact ⟨rfl, fun res h => by simp at h⟩
    | some cells' =>
      have hlen := insertCells_length k v cells cells' hres
      dsimp only
      split_ifs with hcap
      · refine ⟨rfl, ?_⟩
        intro res h
        simp at h
        obtain rfl := h.symm
        exact BTNode.WF.leaf cells'
      · refine ⟨?_, ?_⟩
        · simp [InsertResult.toCells, BTNode.toList, List.take_append_drop]
        · intro res h
          simp at h
          obtain rfl := h.symm
          have h2 : 2 ≤ cells'.length := by omega
          refine ⟨BTNode.WF.leaf _, BTNode.WF.leaf _, ?_, ?_, rfl⟩
          · rw [BTNode.toList]
            intro hc
            rw [List.take_eq_nil_iff] at hc
            rcases hc with h0 | h0
            · omega
            · rw [h0] at h2
              simp at h2
          · rw [BTNode.toList]
            intro hc
            rw [List.drop_eq_nil_iff] at hc
            omega
  | internal cs rc hcs hkeys hrc hrcne ihcs ihrc =>
    intro hS
    rw [BTNode.toList] at hS
    rw [BTNode.toList, BTNode.insertAux]
    have hps : ∀ p ∈ cs.toPairs,
        p.1.WF ∧ p.1.toList ≠ [] ∧ lastKey p.1.toList = p.2 ∧
        (List.Pairwise (· < ·) (cellKeys p.1.toList) →
          (p.1.insertAux L M k v).map InsertResult.toCells
            = insertCells k v p.1.toList ∧
          (∀ res, p.1.insertAux L M k v = some res → res.Good)) :=
      fun p hp => ⟨hcs p hp, (hkeys p hp).1, (hkeys p hp).2, ihcs p hp⟩
    obtain ⟨heq, hgood⟩ := childrenInsert_spec L M k v cs rc hps hrc hrcne ihrc hS
    cases hres : BTChildren.insertAux L M k v cs rc with
    | none =>
      rw [hres] at heq
      refine ⟨?_, ?_⟩
      · simpa using heq
      · intro res h
        simp at h
    | some pr =>
      obtain ⟨cs', rc'⟩ := pr
      rw [hres] at heq
      dsimp only [Option.map_some'] at heq
      obtain ⟨hPW, hWFrc', hnerc'⟩ := hgood cs' rc' hres
      refine ⟨?_, ?_⟩
      · simp only [Option.map_some']
        rw [rebalanceInternal_toCells]
        exact heq
      · intro res h
        simp at h
        obtain rfl := h.symm
        exact rebalanceInternal_good M cs' rc' hPW hWFrc' hnerc'

theorem insertTop_spec (L M : Nat) (hL : 1 ≤ L) (t : BTNode) (hWF : t.WF)
    (hS : t.Sorted) (k : Int) (v : Payload) :
    (t.insertTop L M k v).map BTNode.toList = insertCells k v t.toList ∧
    (∀ t', t.insertTop L M k v = some t' → t'.WF ∧ t'.Sorted ∧
      t'.toList.length = t.toList.length + 1) := by
  obtain ⟨heq, hgood⟩ := insertAux_spec L M hL k v t hWF hS
  unfold BTNode.insertTop
  cases hres : t.insertAux L M k v with
  | none =>
    rw [hres] at heq
    refine ⟨by simpa using heq, ?_⟩
    intro t' h
    simp at h
  | some res =>
    rw [hres] at heq
    cases res with
    | one t' =>
      dsimp only [Option.map_some', InsertResult.toCells] at heq
      refine ⟨by simpa using heq, ?_⟩
      intro t'' h
      simp at h
      obtain rfl := h.symm
      refine ⟨hgood _ hres, ?_, ?_⟩
      · unfold BTNode.Sorted
        exact insertCells_sorted k v t.toList _ hS heq.symm
      · exact insertCells_length k v t.toList _ heq.symm
    | two l sep r =>
      dsimp only [Option.map_some', InsertResult.toCells] at heq
      obtain ⟨hlWF, hrWF, hlne, hrne, hlsep⟩ := hgood _ hres
      have htl : (BTNode.internalN (.cons l sep .nil) r).toList
          = l.toList ++ r.toList := by
        rw [BTNode.toList]
        simp [BTChildren.scanAux]
      refine ⟨?_, ?_⟩
      · simpa [htl] using heq
      · intro t'' h
        simp at h
        obtain rfl := h.symm
        refine ⟨?_, ?_, ?_⟩
        · refine BTNode.WF.internal _ _ ?_ ?_ hrWF hrne
          · intro p hp
            rw [BTChildren.toPairs, BTChildren.toPairs] at hp
            rcases List.mem_cons.mp hp with rfl | hp'
            · exact hlWF
            · cases hp'
          · intro p hp
            rw [BTChildren.toPairs, BTChildren.toPairs] at hp
            rcases List.mem_cons.mp hp with rfl | hp'
            · exact ⟨hlne, hlsep⟩
            · cases hp'
        · unfold BTNode.Sorted
          rw [htl]
          exact insertCells_sorted k v t.toList _ hS heq.symm
        · rw [htl]
          exact insertCells_length k v t.toList _ heq.symm

theorem runInserts_spec (L M : Nat) (hL : 1 ≤ L) :
    ∀ (ops : List (Int × Payload)) (t : BTNode), t.WF → t.Sorted →
      (runInserts L M ops t).1.WF ∧ (runInserts L M ops t).1.Sorted ∧
      (runInserts L M ops t).1.toList.length
        = t.toList.length + (runInserts L M ops t).2
  | [], t => by
    intro hWF hS
    exact ⟨hWF, hS, rfl⟩
  | (k, v) :: rest, t => by
    intro hWF hS
    cases hres : t.insertTop L M k v with
    | none =>
      have ih := runInserts_spec L M hL rest t hWF hS
      simpa [runInserts, hres] using ih
    | some t' =>
      obtain ⟨-, hgood⟩ := insertTop_spec L M hL t hWF hS k v
      obtain ⟨hWF', hS', hlen'⟩ := hgood t' hres
      have ih := runInserts_spec L M hL rest t' hWF' hS'
      simp only [runInserts, hres]
      refine ⟨ih.1, ih.2.1, ?_⟩
      have := ih.2.2
      omega

/-- C4: inserting a key already present in the tree returns
`DuplicateKeyError` (`none` in this embedding — no updated tree is
produced, so the tree state, its `validate()` result and its scan are
unchanged), as captured by the insert executor returning the original tree
with a success count of zero. Holds for every well-formed sorted tree over
any leaf capacity of at least one cell. -/
theorem C4_duplicate_insert (L M : Nat) (hL : 1 ≤ L) (t : BTNode) (k : Int)
    (v : Payload) (hWF : t.WF) (hS : t.Sorted)
    (hmem : k ∈ cellKeys t.toList) :
    t.insertTop L M k v = none ∧
    runInserts L M [(k, v)] t = (t, 0) := by
  have hnone : insertCells k v t.toList = none :=
    insertCells_none_of_mem k v t.toList hS hmem
  obtain ⟨heq, -⟩ := insertTop_spec L M hL t hWF hS k v
  rw [hnone] at heq
  have h1 : t.insertTop L M k v = none := Option.map_eq_none'.mp heq
  refine ⟨h1, ?_⟩
  simp [runInserts, h1]

/-- C4 (witness): re-inserting key 5 into the one-cell root leaf holding
key 5 is rejected and leaves the tree untouched (capacities 3/3). -/
theorem C4_duplicate_insert_witness :
    BTNode.insertTop 3 3 (.leafN [(5, [])]) 5 [] = none ∧
    runInserts 3 3 [(5, ([] : Payload))] (.leafN [(5, [])])
      = (.leafN [(5, [])], 0) :=
  C4_duplicate_insert 3 3 (by decide) (.leafN [(5, [])]) 5 []
    (BTNode.WF.leaf _) (by unfold BTNode.Sorted; decide) (by decide)

/-! ## Theorems: page-level cursor -/

theorem reprTree_flag (ps : Nat → Option PNode) {pn : Nat} {isR : Bool} {par : Nat}
    {s : BTNode} (h : ReprTree ps pn isR par s) :
    ∃ node, ps pn = some node ∧ node.is_root = isR ∧ node.parent = par := by
  cases h with
  | leaf pn isR par cells hp => exact ⟨_, hp, rfl, rfl⟩
  | internal pn isR par pcs prc cs rc hp _ _ => exact ⟨_, hp, rfl, rfl⟩

theorem reprChildren_get (ps : Nat → Option PNode) (parent : Nat) :
    ∀ (i : Nat) (pcs : List (Nat × Int)) (cs : BTChildren),
      ReprChildren ps parent pcs cs →
      ∀ cpn ck, pcs.get? i = some (cpn, ck) →
      ∃ c, cs.toPairs.get? i = some (c, ck) ∧ ReprTree ps cpn false parent c := by
  intro i
  induction i with
  | zero =>
    intro pcs cs h cpn ck hget
    cases h with
    | nil => cases hget
    | cons _ cpn' ck' c prest rest hc hrest =>
      simp only [List.get?, Option.some.injEq, Prod.mk.injEq] at hget
      obtain ⟨rfl, rfl⟩ := hget
      exact ⟨c, by rw [BTChildren.toPairs]; rfl, hc⟩
  | succ i ih =>
    intro pcs cs h cpn ck hget
    cases h with
    | nil => cases hget
    | cons _ cpn' ck' c prest rest hc hrest =>
      obtain ⟨c', hc', hrt⟩ := ih prest rest hrest cpn ck hget
      exact ⟨c', by rw [BTChildren.toPairs]; exact hc', hrt⟩

theorem reprChildren_snd (ps : Nat → Option PNode) (parent : Nat) :
    ∀ (pcs : List (Nat × Int)) (cs : BTChildren),
      ReprChildren ps parent pcs cs →
      pcs.map Prod.snd = cs.toPairs.map Prod.snd := by
  intro pcs
  induction pcs with
  | nil =>
    intro cs h
    cases h
    rfl
  | cons hd tl ih =>
    intro cs h
    cases h with
    | cons _ cpn ck c prest rest hc hrest =>
      rw [BTChildren.toPairs, List.map_cons, List.map_cons, ih rest hrest]

theorem internal_node_find_none (key : Int) :
    ∀ children : List (Nat × Int),
      (∀ p ∈ children, p.2 < key) → internal_node_find children key = none := by
  intro children
  induction children with
  | nil => intro _; rfl
  | cons hd tl ih =>
    intro h
    unfold internal_node_find
    rw [if_neg (not_le.mpr (h hd (List.mem_cons_self _ _))),
      ih (fun p hp => h p (List.mem_cons_of_mem _ hp))]
    rfl

theorem internal_node_find_some (key : Int) :
    ∀ (i : Nat) (children : List (Nat × Int)) (pi : Nat × Int),
      children.get? i = some pi → key ≤ pi.2 →
      (∀ j pj, j < i → children.get? j = some pj → pj.2 < key) →
      internal_node_find children key = some i := by
  intro i
  induction i with
  | zero =>
    intro children pi hget hle _
    cases children with
    | nil => cases hget
    | cons hd tl =>
      simp only [List.get?] at hget
      injection hget with hget
      subst hget
      unfold internal_node_find
      rw [if_pos hle]
  | succ i ih =>
    intro children pi hget hle hlt
    cases children with
    | nil => cases hget
    | cons hd tl =>
      have hhd : hd.2 < key := hlt 0 hd (Nat.succ_pos i) rfl
      unfold internal_node_find
      rw [if_neg (not_le.mpr hhd),
        ih tl pi hget hle (fun j pj hj hg => hlt (j + 1) pj (by omega) hg)]
      rfl

theorem pairsCells_get_split :
    ∀ (l : List (BTNode × Int)) (i : Nat) (c : BTNode) (ck : Int),
      l.get? i = some (c, ck) →
      ∃ X Y, pairsCells l = X ++ (c.toList ++ Y) := by
  intro l
  induction l with
  | nil => intro i c ck h; cases h
  | cons hd tl ih =>
    intro i c ck h
    cases i with
    | zero =>
      simp only [List.get?] at h
      injection h with h
      subst h
      exact ⟨[], pairsCells tl, rfl⟩
    | succ i =>
      obtain ⟨X, Y, hXY⟩ := ih i c ck h
      obtain ⟨c', ck'⟩ := hd
      rw [pairsCells, hXY]
      exact ⟨c'.toList ++ X, Y, by simp [List.append_assoc]⟩

theorem pairwise_of_middle (X A Y : List (Int × Payload))
    (h : List.Pairwise (· < ·) (cellKeys (X ++ (A ++ Y)))) :
    List.Pairwise (· < ·) (cellKeys A) := by
  rw [cellKeys_append, cellKeys_append, List.pairwise_append] at h
  exact (List.pairwise_append.mp h.2.1).1

theorem heightB_le_of_mem :
    ∀ (cs : BTChildren) (c : BTNode) (ck : Int),
      (c, ck) ∈ cs.toPairs → c.heightB ≤ cs.heightC
  | .nil, c, ck => by
    intro h
    rw [BTChildren.toPairs] at h
    cases h
  | .cons c' ck' rest, c, ck => by
    intro h
    rw [BTChildren.toPairs] at h
    rw [BTChildren.heightC]
    rcases List.mem_cons.mp h with heq | h'
    · injection heq with h1 h2
      subst h1
      exact le_max_left _ _
    · exact le_trans (heightB_le_of_mem rest c ck h') (le_max_right _ _)

theorem internal_child_facts (cs : BTChildren) (rc : BTNode) (i : Nat)
    (c : BTNode) (ck : Int) (hget : cs.toPairs.get? i = some (c, ck))
    (hWF : (BTNode.internalN cs rc).WF)
    (hS : List.Pairwise (· < ·) (cellKeys (BTNode.internalN cs rc).toList))
    (hOk : TreeOk (.internalN cs rc)) :
    c.WF ∧ c.toList ≠ [] ∧ lastKey c.toList = ck ∧
    List.Pairwise (· < ·) (cellKeys c.toList) ∧ TreeOk c ∧
    c.heightB < (BTNode.internalN cs rc).heightB := by
  have hmem : (c, ck) ∈ cs.toPairs := List.get?_mem hget
  cases hWF with
  | internal _ _ h1 h2 h3 h4 =>
    cases hOk with
    | internal _ _ o1 o2 o3 =>
      refine ⟨h1 _ hmem, (h2 _ hmem).1, (h2 _ hmem).2, ?_, o2 _ hmem, ?_⟩
      · obtain ⟨X, Y, hXY⟩ := pairsCells_get_split cs.toPairs i c ck hget
        rw [BTNode.toList, scanAux_eq_pairsCells, hXY, List.append_assoc,
          List.append_assoc] at hS
        exact pairwise_of_middle X c.toList (Y ++ rc.toList) hS
      · rw [BTNode.heightB]
        have := heightB_le_of_mem cs c ck hmem
        omega

theorem internal_rc_facts (cs : BTChildren) (rc : BTNode)
    (hWF : (BTNode.internalN cs rc).WF)
    (hS : List.Pairwise (· < ·) (cellKeys (BTNode.internalN cs rc).toList))
    (hOk : TreeOk (.internalN cs rc)) :
    rc.WF ∧ rc.toList ≠ [] ∧
    List.Pairwise (· < ·) (cellKeys rc.toList) ∧ TreeOk rc ∧
    rc.heightB < (BTNode.internalN cs rc).heightB := by
  cases hWF with
  | internal _ _ h1 h2 h3 h4 =>
    cases hOk with
    | internal _ _ o1 o2 o3 =>
      refine ⟨h3, h4, ?_, o3, ?_⟩
      · rw [BTNode.toList, cellKeys_append, List.pairwise_append] at hS
        exact hS.2.1
      · rw [BTNode.heightB]
        omega

theorem get_node_max_key_spec (ps : Nat → Option PNode) :
    ∀ (fuel : Nat) (s : BTNode) (q : Nat) (isR : Bool) (par : Nat) (node : PNode),
      ReprTree ps q isR par s → ps q = some node → s.WF → s.toList ≠ [] →
      s.heightB ≤ fuel →
      get_node_max_key ps fuel node = some (lastKey s.toList) := by
  intro fuel
  induction fuel with
  | zero =>
    intro s q isR par node hrepr hnode hWF hne hh
    cases hrepr with
    | leaf pn isR par cells hp =>
      rw [hp] at hnode
      injection hnode with hnode
      subst hnode
      rw [BTNode.toList] at hne ⊢
      cases hlast : cells.getLast? with
      | none => exact absurd (List.getLast?_eq_none_iff.mp hlast) hne
      | some x =>
        rw [get_node_max_key, hlast]
        unfold lastKey
        rw [hlast]
        rfl
    | internal pn isR par pcs prc cs rc hp hcs hrc =>
      rw [BTNode.heightB] at hh
      omega
  | succ fuel ih =>
    intro s q isR par node hrepr hnode hWF hne hh
    cases hrepr with
    | leaf pn isR par cells hp =>
      rw [hp] at hnode
      injection hnode with hnode
      subst hnode
      rw [BTNode.toList] at hne ⊢
      cases hlast : cells.getLast? with
      | none => exact absurd (List.getLast?_eq_none_iff.mp hlast) hne
      | some x =>
        rw [get_node_max_key, hlast]
        unfold lastKey
        rw [hlast]
        rfl
    | internal pn isR par pcs prc cs rc hp hcs hrc =>
      rw [hp] at hnode
      injection hnode with hnode
      subst hnode
      obtain ⟨rcnode, hrcn, -, -⟩ := reprTree_flag ps hrc
      have hWFrc : rc.WF := by cases hWF with | internal _ _ h1 h2 h3 h4 => exact h3
      have hnerc : rc.toList ≠ [] := by
        cases hWF with | internal _ _ h1 h2 h3 h4 => exact h4
      have hhrc : rc.heightB ≤ fuel := by
        rw [BTNode.heightB] at hh
        omega
      rw [get_node_max_key, hrcn, BTNode.toList, lastKey_append _ _ hnerc]
      exact ih rc prc false q rcnode hrc hrcn hWFrc hnerc hhrc

theorem first_leaf_spec (ps : Nat → Option PNode) :
    ∀ (fuel : Nat) (s : BTNode) (q : Nat) (isR : Bool) (par : Nat),
      ReprTree ps q isR par s → TreeOk s → s.heightB < fuel →
      ∃ pn isR' par',
        first_leaf ps fuel q
          = some { page_num := pn, cell_num := 0,
                   end_of_table := s.headCells.length = 0 } ∧
        ps pn = some (.pleaf isR' par' s.headCells) ∧
        LeafInT ps q s pn s.headCells := by
  intro fuel
  induction fuel with
  | zero =>
    intro s q isR par _ _ hh
    omega
  | succ fuel ih =>
    intro s q isR par hrepr hOk hh
    cases hrepr with
    | leaf _ _ _ cells hp =>
      exact ⟨q, isR, par, by rw [first_leaf, hp]; rfl, hp,
        LeafInT.here _ _ _ _ hp⟩
    | internal _ _ _ pcs prc cs rc hp hcs hrc =>
      cases hOk with
      | internal _ _ o1 o2 o3 =>
        cases hcs with
        | nil => exact absurd rfl o1
        | cons _ cpn ck c prest rest hc hrest =>
          have hhc : c.heightB < fuel := by
            rw [BTNode.heightB, BTChildren.heightC] at hh
            omega
          have hOkc : TreeOk c := o2 (c, ck)
            (by rw [BTChildren.toPairs]; exact List.mem_cons_self _ _)
          obtain ⟨pn, isR', par', h1, h2, h3⟩ := ih c cpn false q hc hOkc hhc
          refine ⟨pn, isR', par', ?_, h2, ?_⟩
          · rw [first_leaf, hp]
            exact h1
          · exact LeafInT.inListed _ _ _ _ _ _ _ 0 _ _ _ _ _ hp
              (ReprChildren.cons _ _ _ _ _ _ hc hrest) hrc rfl rfl h3

theorem sep_mem :
    ∀ (cs : BTChildren) (rc : BTNode),
      (∀ p ∈ cs.toPairs, p.1.toList ≠ [] ∧ lastKey p.1.toList = p.2) →
      rc.toList ≠ [] →
      ∀ a ∈ (cs.toPairs.map Prod.snd ++ [lastKey rc.toList]),
        a ∈ cellKeys (cs.scanAux ++ rc.toList)
  | .nil, rc => by
    intro _ hrc a ha
    rw [BTChildren.toPairs] at ha
    simp only [List.map_nil, List.nil_append, List.mem_singleton] at ha
    subst ha
    rw [BTChildren.scanAux, List.nil_append]
    exact lastKey_mem _ hrc
  | .cons c ck rest, rc => by
    intro hpairs hrc a ha
    rw [BTChildren.toPairs, List.map_cons, List.cons_append] at ha
    rw [BTChildren.scanAux, List.append_assoc, cellKeys_append]
    rcases List.mem_cons.mp ha with rfl | ha'
    · have hp := hpairs (c, a)
        (by rw [BTChildren.toPairs]; exact List.mem_cons_self _ _)
      dsimp only at hp
      apply List.mem_append_left
      rw [← hp.2]
      exact lastKey_mem _ hp.1
    · apply List.mem_append_right
      exact sep_mem rest rc
        (fun p hp => hpairs p
          (by rw [BTChildren.toPairs]; exact List.mem_cons_of_mem _ hp))
        hrc a ha'

theorem separators_sorted :
    ∀ (cs : BTChildren) (rc : BTNode),
      (∀ p ∈ cs.toPairs, p.1.toList ≠ [] ∧ lastKey p.1.toList = p.2) →
      rc.toList ≠ [] →
      List.Pairwise (· < ·) (cellKeys (cs.scanAux ++ rc.toList)) →
      List.Pairwise (· < ·) (cs.toPairs.map Prod.snd ++ [lastKey rc.toList])
  | .nil, rc => by
    intro _ _ _
    rw [BTChildren.toPairs]
    simp
  | .cons c ck rest, rc => by
    intro hpairs hrc hS
    rw [BTChildren.toPairs, List.map_cons, List.cons_append, List.pairwise_cons]
    have hrest := fun p hp => hpairs p
      (by rw [BTChildren.toPairs]; exact List.mem_cons_of_mem _ hp)
    rw [BTChildren.scanAux, List.append_assoc, cellKeys_append,
      List.pairwise_append] at hS
    constructor
    · intro a ha
      have hp := hpairs (c, ck)
        (by rw [BTChildren.toPairs]; exact List.mem_cons_self _ _)
      dsimp only at hp
      have hckmem : ck ∈ cellKeys c.toList := by
        rw [← hp.2]
        exact lastKey_mem _ hp.1
      exact hS.2.2 ck hckmem a (sep_mem rest rc hrest hrc a ha)
    · exact separators_sorted rest rc hrest hrc hS.2.1

theorem pairwise_get?_lt {l : List Int} (h : List.Pairwise (· < ·) l)
    {i j : Nat} {x y : Int} (hij : j < i) (hj : l.get? j = some x)
    (hi : l.get? i = some y) : x < y := by
  obtain ⟨hjl, hjx⟩ := List.get?_eq_some.mp hj
  obtain ⟨hil, hiy⟩ := List.get?_eq_some.mp hi
  subst hjx hiy
  exact List.pairwise_iff_get.mp h ⟨j, hjl⟩ ⟨i, hil⟩ hij

theorem leafInT_page (ps : Nat → Option PNode) :
    ∀ (q : Nat) (s : BTNode) (pn : Nat) (cells : List (Int × Payload)),
      LeafInT ps q s pn cells →
      ∃ isR par, ps pn = some (.pleaf isR par cells) := by
  intro q s pn cells h
  induction h with
  | here q isR par cells hp => exact ⟨isR, par, hp⟩
  | inListed q isR par pcs prc cs rc i cpn ck c pn cells hq hcs hrc hgetp hgett hleaf ih =>
    exact ih
  | inRight q isR par pcs prc cs rc pn cells hq hcs hrc hleaf ih =>
    exact ih

theorem next_leaf_name_error (ps : Nat → Option PNode) (pn par' : Nat)
    (cells : List (Int × Payload)) (isRp : Bool) (parp : Nat)
    (pcs : List (Nat × Int)) (prc : Nat)
    (hpleaf : ps pn = some (.pleaf false par' cells))
    (hpint : ps par' = some (.pinternal isRp parp pcs prc))
    (hcne : cells ≠ []) (fuel cn : Nat) (et : Bool) :
    next_leaf ps fuel { page_num := pn, cell_num := cn, end_of_table := et }
      = .error .nameError := by
  cases hlastq : cells.getLast? with
  | none => exact absurd (List.getLast?_eq_none_iff.mp hlastq) hcne
  | some cell =>
    simp only [next_leaf, hpleaf, PNode.is_root, Bool.false_eq_true, if_false,
      get_node_max_key, hlastq, Option.map_some', PNode.parent, hpint]
    cases internal_node_find pcs cell.1 <;> rfl

theorem advance_name_error (ps : Nat → Option PNode) (pn par' : Nat)
    (cells : List (Int × Payload)) (isRp : Bool) (parp : Nat)
    (pcs : List (Nat × Int)) (prc : Nat)
    (hpleaf : ps pn = some (.pleaf false par' cells))
    (hpint : ps par' = some (.pinternal isRp parp pcs prc))
    (hcne : cells ≠ []) (cn : Nat) (hlast : cells.length ≤ cn + 1)
    (fuel : Nat) (et : Bool) :
    advance ps fuel { page_num := pn, cell_num := cn, end_of_table := et }
      = .error .nameError := by
  simp only [advance, hpleaf]
  rw [if_pos hlast]
  exact next_leaf_name_error ps pn par' cells isRp parp pcs prc hpleaf hpint
    hcne fuel cn et

theorem leafInT_deep (ps : Nat → Option PNode) :
    ∀ (q : Nat) (s : BTNode) (pn : Nat) (cells : List (Int × Payload)),
      LeafInT ps q s pn cells →
      ∀ (par : Nat), ReprTree ps q false par s →
      (∃ isR0 par0 pcs0 prc0, ps par = some (.pinternal isR0 par0 pcs0 prc0)) →
      ∃ par' isRp parp pcs prc,
        ps pn = some (.pleaf false par' cells) ∧
        ps par' = some (.pinternal isRp parp pcs prc) := by
  intro q s pn cells h
  induction h with
  | here q isR par cells hp =>
    intro par1 hrepr hpar
    cases hrepr with
    | leaf _ _ _ _ hp' =>
      obtain ⟨isR0, par0, pcs0, prc0, hpint⟩ := hpar
      exact ⟨par1, isR0, par0, pcs0, prc0, hp', hpint⟩
  | inListed q isR par pcs prc cs rc i cpn ck c pn cells hq hcs hrc hgetp hgett hleaf ih =>
    intro par1 hrepr hpar
    obtain ⟨c', hc', hrt⟩ := reprChildren_get ps q i pcs cs hcs cpn ck hgetp
    have hcc := hc'.symm.trans hgett
    simp only [Option.some.injEq, Prod.mk.injEq] at hcc
    obtain ⟨rfl, -⟩ := hcc
    exact ih q hrt ⟨isR, par, pcs, prc, hq⟩
  | inRight q isR par pcs prc cs rc pn cells hq hcs hrc hleaf ih =>
    intro par1 hrepr hpar
    exact ih q hrc ⟨isR, par, pcs, prc, hq⟩

theorem leafInT_internal_ctx (ps : Nat → Option PNode) (cs : BTChildren)
    (rc : BTNode) (pn : Nat) (cells : List (Int × Payload))
    (hleaf : LeafInT ps 0 (.internalN cs rc) pn cells) :
    ∃ par' isRp parp pcs prc,
      ps pn = some (.pleaf false par' cells) ∧
      ps par' = some (.pinternal isRp parp pcs prc) := by
  match hleaf with
  | .inListed _ isR par pcs1 prc1 _ _ i cpn ck c _ _ hq hcs hrc hgetp hgett hleaf' =>
    obtain ⟨c', hc', hrt⟩ := reprChildren_get ps 0 i pcs1 cs hcs cpn ck hgetp
    have hcc := hc'.symm.trans hgett
    simp only [Option.some.injEq, Prod.mk.injEq] at hcc
    obtain ⟨rfl, -⟩ := hcc
    exact leafInT_deep ps cpn _ pn cells hleaf' 0 hrt ⟨isR, par, pcs1, prc1, hq⟩
  | .inRight _ isR par pcs1 prc1 _ _ _ _ hq hcs hrc hleaf' =>
    exact leafInT_deep ps prc1 rc pn cells hleaf' 0 hrc ⟨isR, par, pcs1, prc1, hq⟩

theorem first_leaf_mono (ps : Nat → Option PNode) :
    ∀ (fuel q : Nat) (c : PCursor),
      first_leaf ps fuel q = some c → first_leaf ps (fuel + 1) q = some c
  | 0, q, c => by
    intro h
    rw [first_leaf] at h
    cases h
  | fuel + 1, q, c => by
    simp only [first_leaf]
    cases hp : ps q with
    | none =>
      intro h
      cases h
    | some node =>
      cases node with
      | pleaf isR par cells =>
        intro h
        exact h
      | pinternal isR par children rcn =>
        cases children with
        | nil =>
          intro h
          cases h
        | cons p rest =>
          obtain ⟨cpn, ck⟩ := p
          intro h
          exact first_leaf_mono ps fuel cpn c h

theorem first_leaf_mono_le (ps : Nat → Option PNode) {fuel fuel' q : Nat}
    {c : PCursor} (h : fuel ≤ fuel') (hf : first_leaf ps fuel q = some c) :
    first_leaf ps fuel' q = some c := by
  induction fuel' with
  | zero =>
    have h0 : fuel = 0 := by omega
    subst h0
    exact hf
  | succ n ih =>
    rcases Nat.lt_or_ge fuel (n + 1) with hlt | hge
    · exact first_leaf_mono ps n q c (ih (by omega))
    · have he : fuel = n + 1 := by omega
      subst he
      exact hf

theorem scan_loop_no_ok (ps : Nat → Option PNode) (pn par' : Nat)
    (cells : List (Int × Payload)) (isRp : Bool) (parp : Nat)
    (pcs : List (Nat × Int)) (prc : Nat)
    (hpleaf : ps pn = some (.pleaf false par' cells))
    (hpint : ps par' = some (.pinternal isRp parp pcs prc)) :
    ∀ (fuel cn : Nat), cn < cells.length →
      ∀ rows,
        scan_loop ps fuel { page_num := pn, cell_num := cn, end_of_table := false }
          ≠ .ok rows := by
  intro fuel
  induction fuel with
  | zero =>
    intro cn hcn rows h
    rw [scan_loop] at h
    cases h
  | succ fuel ih =>
    intro cn hcn rows h
    have hcne : cells ≠ [] := by
      intro h0
      subst h0
      simp at hcn
    simp only [scan_loop, get_row, hpleaf, List.get?_eq_get hcn, Option.map_some',
      Bool.false_eq_true, if_false] at h
    by_cases hlast : cells.length ≤ cn + 1
    · rw [advance_name_error ps pn par' cells isRp parp pcs prc hpleaf hpint
        hcne cn hlast fuel false] at h
      simp at h
    · have hadv : advance ps fuel
          { page_num := pn, cell_num := cn, end_of_table := false }
          = .ok { page_num := pn, cell_num := cn + 1, end_of_table := false } := by
        simp only [advance, hpleaf]
        rw [if_neg hlast]
      rw [hadv] at h
      dsimp only at h
      cases hs : scan_loop ps fuel
          { page_num := pn, cell_num := cn + 1, end_of_table := false } with
      | error e =>
        rw [hs] at h
        simp [Except.map] at h
      | ok rows' =>
        exact ih (cn + 1) (by omega) rows' hs

/-- C8: REFUTED — a bug in the code. On any page table representing a
valid tree with more than one leaf (root an internal node; well-formed,
sorted, structurally sound), advancing past the last cell of any leaf
reaches `Cursor.next_leaf`, which off the root evaluates `child_num ==
INTERNAL_NODE_MAX_CELLS` (src/learndb.py line 328). That name is
unbound — line 14 imports only `Tree`, `TreeInsertResult` and `NodeType`
from `btree` and learndb.py never defines it — so the operation raises
`NameError`: an uncaught exception on the normal traversal path, not an
assertion, contradicting the claim that cursor operations complete
normally on every valid tree. -/
theorem C8_advance_name_error (ps : Nat → Option PNode) (cs : BTChildren)
    (rc : BTNode) (hrepr : ReprTree ps 0 true 0 (.internalN cs rc))
    (hWF : (BTNode.internalN cs rc).WF)
    (hS : List.Pairwise (· < ·) (cellKeys (BTNode.internalN cs rc).toList))
    (hOk : TreeOk (.internalN cs rc))
    (pn : Nat) (cells : List (Int × Payload))
    (hleaf : LeafInT ps 0 (.internalN cs rc) pn cells)
    (cn : Nat) (hcn : cn < cells.length) (hlast : cells.length ≤ cn + 1)
    (fuel : Nat) (et : Bool) :
    advance ps fuel { page_num := pn, cell_num := cn, end_of_table := et }
      = .error .nameError := by
  obtain ⟨par', isRp, parp, pcs, prc, hpl, hpint⟩ :=
    leafInT_internal_ctx ps cs rc pn cells hleaf
  exact advance_name_error ps pn par' cells isRp parp pcs prc hpl hpint
    (by intro h0; subst h0; simp at hcn) cn hlast fuel et

theorem C8_advance_name_error_witness :
    advance psTwoLeaf 0 { page_num := 2, cell_num := 1, end_of_table := false }
      = .error .nameError := by
  have hrepr : ReprTree psTwoLeaf 0 true 0 tTwoLeaf :=
    ReprTree.internal 0 true 0 [(1, 10)] 2 _ _ rfl
      (ReprChildren.cons 0 1 10 _ [] .nil
        (ReprTree.leaf 1 false 0 _ rfl) (ReprChildren.nil 0))
      (ReprTree.leaf 2 false 0 _ rfl)
  have hWF : tTwoLeaf.WF := by
    refine BTNode.WF.internal _ _ ?_ ?_ (BTNode.WF.leaf _) (by decide)
    · intro p hp
      simp only [BTChildren.toPairs, List.mem_singleton] at hp
      subst hp
      exact BTNode.WF.leaf _
    · intro p hp
      simp only [BTChildren.toPairs, List.mem_singleton] at hp
      subst hp
      exact ⟨by decide, by decide⟩
  have hS : List.Pairwise (· < ·) (cellKeys tTwoLeaf.toList) := by decide
  have hOk : TreeOk tTwoLeaf := by
    refine TreeOk.internal _ _ (by decide) ?_ (TreeOk.leaf _)
    intro p hp
    simp only [BTChildren.toPairs, List.mem_singleton] at hp
    subst hp
    exact TreeOk.leaf _
  have hin : LeafInT psTwoLeaf 0 tTwoLeaf 2 [(15, []), (20, [])] :=
    LeafInT.inRight 0 true 0 [(1, 10)] 2 _ _ 2 _ rfl
      (ReprChildren.cons 0 1 10 _ [] .nil
        (ReprTree.leaf 1 false 0 _ rfl) (ReprChildren.nil 0))
      (ReprTree.leaf 2 false 0 _ rfl)
      (LeafInT.here 2 false 0 _ rfl)
  exact C8_advance_name_error psTwoLeaf _ _ hrepr hWF hS hOk 2
    [(15, []), (20, [])] hin 1 (by decide) (by decide) 0 false

/-- C1: REFUTED — a bug in the code. The claimed full cursor scan
(`execute_select`: `table_start`, then repeated `get_row`/`advance` until
`end_of_table`) cannot yield the inserted keys once the table has more
than one leaf — which any key set large enough to split the root leaf
produces: the first `advance` past the last cell of the first leaf calls
`Cursor.next_leaf`, which raises `NameError` on the unbound
`INTERNAL_NODE_MAX_CELLS` (src/learndb.py line 328; line 14 imports only
`Tree`, `TreeInsertResult` and `NodeType`). So on every such valid tree
the scan returns an exception, never a row list, whatever the iteration
bound. -/
theorem C1_scan_crashes (ps : Nat → Option PNode) (cs : BTChildren)
    (rc : BTNode) (hrepr : ReprTree ps 0 true 0 (.internalN cs rc))
    (hWF : (BTNode.internalN cs rc).WF)
    (hS : List.Pairwise (· < ·) (cellKeys (BTNode.internalN cs rc).toList))
    (hOk : TreeOk (.internalN cs rc))
    (hne : (BTNode.internalN cs rc).headCells ≠ []) :
    ∀ (fuel : Nat) (rows : List Row), execute_select ps fuel ≠ .ok rows := by
  intro fuel rows hok
  rw [execute_select] at hok
  cases hts : table_start ps fuel with
  | none =>
    rw [hts] at hok
    cases hok
  | some c =>
    rw [hts] at hok
    dsimp only at hok
    rw [table_start] at hts
    obtain ⟨pn0, isR0, par0, hfl, hpleaf0, hin0⟩ :=
      first_leaf_spec ps (max fuel ((BTNode.internalN cs rc).heightB + 1))
        (.internalN cs rc) 0 true 0 hrepr hOk (by
          have hmr := le_max_right fuel ((BTNode.internalN cs rc).heightB + 1)
          omega)
    have hts' : first_leaf ps (max fuel ((BTNode.internalN cs rc).heightB + 1)) 0
        = some c :=
      first_leaf_mono_le ps (le_max_left _ _) hts
    have hceq := hts'.symm.trans hfl
    injection hceq with hceq
    subst hceq
    have hlen0 : ¬ (BTNode.internalN cs rc).headCells.length = 0 := by
      intro h0
      exact hne (List.length_eq_zero.mp h0)
    rw [decide_eq_false hlen0] at hok
    obtain ⟨par', isRp, parp, pcs, prc, hpl, hpint⟩ :=
      leafInT_internal_ctx ps cs rc pn0 _ hin0
    exact scan_loop_no_ok ps pn0 par' _ isRp parp pcs prc hpl hpint fuel 0
      (Nat.pos_of_ne_zero hlen0) rows hok

theorem C1_scan_crashes_witness :
    execute_select psTwoLeaf 10 ≠ .ok [] := by
  have hrepr : ReprTree psTwoLeaf 0 true 0 tTwoLeaf :=
    ReprTree.internal 0 true 0 [(1, 10)] 2 _ _ rfl
      (ReprChildren.cons 0 1 10 _ [] .nil
        (ReprTree.leaf 1 false 0 _ rfl) (ReprChildren.nil 0))
      (ReprTree.leaf 2 false 0 _ rfl)
  have hWF : tTwoLeaf.WF := by
    refine BTNode.WF.internal _ _ ?_ ?_ (BTNode.WF.leaf _) (by decide)
    · intro p hp
      simp only [BTChildren.toPairs, List.mem_singleton] at hp
      subst hp
      exact BTNode.WF.leaf _
    · intro p hp
      simp only [BTChildren.toPairs, List.mem_singleton] at hp
      subst hp
      exact ⟨by decide, by decide⟩
  have hS : List.Pairwise (· < ·) (cellKeys tTwoLeaf.toList) := by decide
  have hOk : TreeOk tTwoLeaf := by
    refine TreeOk.internal _ _ (by decide) ?_ (TreeOk.leaf _)
    intro p hp
    simp only [BTChildren.toPairs, List.mem_singleton] at hp
    subst hp
    exact TreeOk.leaf _
  exact C1_scan_crashes psTwoLeaf _ _ hrepr hWF hS hOk (by decide) 10 []

end LearnDb
